import Mathlib

/- Formal model of the group-partitioning engine in `app/group_divider.py`
(class `MemberRole`, dataclasses `GroupMember` and `Group`, functions
`balance_gender_in_groups` and `divide_into_groups`), together with proofs
of the specification claims about it.

Modelling conventions:
* Python floats are modelled as real numbers (`ℝ`); `float('-inf')` in
  `calculate_gender_entropy` is modelled by the extended reals (`EReal`).
* Python `random.shuffle` / `random.choice` / `random.random` are modelled by
  an explicit oracle (`Rand`) supplying the shuffled lists and the choices;
  theorems quantify over all oracles (for shuffles, over all oracles whose
  outputs are permutations of their inputs, which is exactly the guarantee
  `random.shuffle` provides).
* Mutation of the Python lists is modelled by explicit state passing; an
  append to `groups[i].members` becomes `appendAt`.
-/

namespace SmallGroup

/-- Mirrors `MemberRole` (group_divider.py lines 10-13). -/
inductive MemberRole where
  | FACILITATOR
  | COUNSELOR
  | REGULAR
  deriving DecidableEq, Repr

/-- Mirrors `MemberRole.from_db_role` (lines 15-28): a dict lookup on the
lower-cased role string, with default `REGULAR`. -/
def MemberRole.from_db_role (role : String) : MemberRole :=
  let role_map : List (String × MemberRole) :=
    [("facilitator", .FACILITATOR), ("counselor", .COUNSELOR),
     ("none", .REGULAR), ("regular", .REGULAR)]
  (role_map.lookup role.toLower).getD .REGULAR

/-- Mirrors the frozen dataclass `GroupMember` (lines 31-46). -/
structure GroupMember where
  id : Int
  surname : String
  given_name : String
  role : MemberRole
  gender : String
  faith_status : String
  education_status : String
  is_graduated : Bool
  is_present : Bool
  prep_attended : Bool
  deriving DecidableEq, Repr

/-- Mirrors the dataclass `Group` (lines 49-51). -/
structure Group where
  members : List GroupMember
  deriving DecidableEq, Repr

/-- Mirrors `Group.has_facilitator` (lines 53-55). -/
def Group.has_facilitator (g : Group) : Bool :=
  g.members.any (fun m => m.role == .FACILITATOR)

/-- Mirrors `Group.counselor_count` (lines 57-59). -/
def Group.counselor_count (g : Group) : Nat :=
  g.members.countP (fun m => m.role == .COUNSELOR)

/-- Mirrors `Group.leader_count` (lines 61-68). -/
def Group.leader_count (g : Group) : Nat :=
  g.members.countP (fun m => m.role == .FACILITATOR || m.role == .COUNSELOR)

/-- Mirrors `Group.prep_attended_count` (lines 70-72). -/
def Group.prep_attended_count (g : Group) : Nat :=
  g.members.countP (fun m => m.prep_attended)

/-- Mirrors `Group.add_member` (lines 147-148). -/
def Group.add_member (g : Group) (member : GroupMember) : Group :=
  Group.mk (g.members ++ [member])

/-- The composite label `f"{m.gender}_{m.faith_status}"` of line 92. -/
def characteristic (m : GroupMember) : String :=
  m.gender ++ "_" ++ m.faith_status

/-- Mirrors `Group.calculate_diversity_score` (lines 74-145).  The Python
`Counter` iteration accumulating `-p * ln(p)` over the values is modelled as a
sum of `Real.negMulLog (count / total)` over the distinct labels
(`characteristics.dedup`); `all_groups=None` versus a supplied list is an
`Option`, and the Python truthiness test `if all_groups:` is false for both
`None` and the empty list. -/
noncomputable def Group.calculate_diversity_score (g : Group)
    (all_groups : Option (List Group)) : ℝ :=
  if g.members = [] then 0
  else
    let characteristics := g.members.map characteristic
    let total : ℝ := (characteristics.length : ℝ)
    let diversity : ℝ :=
      (characteristics.dedup.map
        (fun c => Real.negMulLog ((characteristics.count c : ℝ) / total))).sum
    let diversity : ℝ :=
      if 8 < g.members.length then
        diversity - (((g.members.length : ℝ) - 8) ^ 2) * 0.5
      else diversity
    match all_groups with
    | none => diversity
    | some ags =>
      if ags = [] then diversity
      else
        let avg_size : ℝ := (ags.map (fun h => (h.members.length : ℝ))).sum / (ags.length : ℝ)
        let size_deviation : ℝ := |(g.members.length : ℝ) - avg_size|
        let diversity := diversity - (size_deviation ^ 2) * 0.3
        let avg_prep : ℝ := (ags.map (fun h => (h.prep_attended_count : ℝ))).sum / (ags.length : ℝ)
        let prep_deviation : ℝ := |(g.prep_attended_count : ℝ) - avg_prep|
        let diversity := diversity - (prep_deviation ^ 2) * 0.4
        let total_leaders : Nat := (ags.map (fun h => h.leader_count)).sum
        let total_members : Nat := (ags.map (fun h => h.members.length)).sum
        let ideal_leader_ratio : ℝ :=
          if 0 < total_members then (total_leaders : ℝ) / (total_members : ℝ) else 0
        let group_leader_ratio : ℝ :=
          if g.members ≠ [] then (g.leader_count : ℝ) / (g.members.length : ℝ) else 0
        let leader_ratio_deviation : ℝ := |group_leader_ratio - ideal_leader_ratio|
        diversity - (leader_ratio_deviation ^ 2) * (g.members.length : ℝ) * 0.6

/-- Randomness oracle.  The `shuffle...` fields model the five `random.shuffle`
calls of `divide_into_groups` (one per call site, so distinct sites may use
distinct permutations); the `pick...` fields model the `random.choice` calls of
`balance_gender_in_groups` by an index per iteration (reduced mod the list
length), and `coin` models the outcome of the Metropolis-Hastings test
`random.random() < exp(delta_entropy / temperature)`: since `random.random()`
is a fresh uniform draw, any outcome of that comparison corresponds to a coin
value (the code additionally always accepts when `delta_entropy > 0`, which the
model keeps explicitly). -/
structure Rand where
  shufflePrep : List GroupMember → List GroupMember
  shuffleIdx : List Nat → List Nat
  shuffleFacs : List GroupMember → List GroupMember
  shuffleCouns : List GroupMember → List GroupMember
  shuffleAvail : List Nat → List Nat
  pickG1 : Nat → Nat
  pickG2 : Nat → Nat
  pickPair : Nat → Nat
  coin : Nat → Bool

/-- Validity of an oracle: each shuffle field returns a permutation of its
input, which is exactly the guarantee of `random.shuffle`. -/
def Rand.Valid (R : Rand) : Prop :=
  (∀ xs, List.Perm (R.shufflePrep xs) xs) ∧
  (∀ xs, List.Perm (R.shuffleIdx xs) xs) ∧
  (∀ xs, List.Perm (R.shuffleFacs xs) xs) ∧
  (∀ xs, List.Perm (R.shuffleCouns xs) xs) ∧
  (∀ xs, List.Perm (R.shuffleAvail xs) xs)

/-- Trivial oracle: shuffles are the identity permutation, all picks are the
first element, the coin is always false. -/
def trivialRand : Rand :=
  ⟨id, id, id, id, id, fun _ => 0, fun _ => 0, fun _ => 0, fun _ => false⟩

theorem trivialRand_valid : trivialRand.Valid :=
  ⟨fun xs => List.Perm.refl xs, fun xs => List.Perm.refl xs, fun xs => List.Perm.refl xs,
   fun xs => List.Perm.refl xs, fun xs => List.Perm.refl xs⟩

/-- Mirrors the nested `get_member_ids` (lines 166-168): a Python set of ids. -/
def get_member_ids (groups : List Group) : Finset Int :=
  (groups.flatMap (fun g => g.members.map (fun m => m.id))).toFinset

/-- The flat list `all_ids` built by `has_duplicates` (lines 172-174). -/
def all_member_ids (groups : List Group) : List Int :=
  groups.flatMap (fun g => g.members.map (fun m => m.id))

/-- Mirrors the nested `has_duplicates` (lines 170-175):
`len(all_ids) != len(set(all_ids))`. -/
def has_duplicates (groups : List Group) : Bool :=
  (all_member_ids groups).length != ((all_member_ids groups).dedup).length

/-- Mirrors the nested `can_swap` (lines 177-192). -/
def can_swap (m1 m2 : GroupMember) : Bool :=
  m1.gender != m2.gender && m1.role == m2.role &&
    m1.prep_attended == m2.prep_attended && !m1.is_graduated && !m2.is_graduated

/-- Mirrors the nested `is_non_graduate_group` (lines 194-205). -/
def is_non_graduate_group (group : Group) : Bool :=
  let regular_members := group.members.filter (fun m => m.role == MemberRole.REGULAR)
  if regular_members = [] then true
  else !(regular_members.any (fun m => m.is_graduated))

/-- Gender entropy of one group inside `calculate_gender_entropy`
(lines 220-234).  The Python guards `if p_male > 0: ... -= p * ln(p)` are the
two `negMulLog` summands (`negMulLog 0 = 0` covers the skipped case). -/
noncomputable def group_gender_entropy (group : Group) : ℝ :=
  let males := group.members.countP (fun m => m.gender == "M")
  let females := group.members.countP (fun m => m.gender == "F")
  let total := males + females
  if 0 < total then
    Real.negMulLog ((males : ℝ) / (total : ℝ)) + Real.negMulLog ((females : ℝ) / (total : ℝ))
  else 0

/-- Counselor-balance entropy of one group inside `calculate_gender_entropy`
(lines 236-259). -/
noncomputable def group_counselor_entropy (group : Group) : ℝ :=
  let male_counselors :=
    group.members.countP (fun m => m.gender == "M" && m.role == MemberRole.COUNSELOR)
  let female_counselors :=
    group.members.countP (fun m => m.gender == "F" && m.role == MemberRole.COUNSELOR)
  let total_counselors := male_counselors + female_counselors
  if 0 < total_counselors then
    Real.negMulLog ((male_counselors : ℝ) / (total_counselors : ℝ)) +
      Real.negMulLog ((female_counselors : ℝ) / (total_counselors : ℝ))
  else 0

/-- Mirrors the nested `calculate_gender_entropy` (lines 207-261).  The
`float('-inf')` returned on duplicate detection is `⊥ : EReal`; the `continue`
skipping graduate groups contributes `0` to the sum. -/
noncomputable def calculate_gender_entropy (groups : List Group) : EReal :=
  if has_duplicates groups then ⊥
  else
    (((groups.map (fun group =>
        if is_non_graduate_group group then
          group_gender_entropy group + group_counselor_entropy group
        else 0)).sum : ℝ) : EReal)

/-- Loop state of `balance_gender_in_groups`: the five variables mutated by the
main loop (lines 293-347). -/
structure BalState where
  balanced_groups : List Group
  current_entropy : EReal
  best_entropy : EReal
  best_groups : List Group
  temperature : ℝ

/-- Dummy member used only as the unreachable default of list indexing. -/
def default_member : GroupMember :=
  ⟨0, "", "", .REGULAR, "", "", "", false, false, false⟩

section
open scoped Classical

/-- One iteration of the main loop of `balance_gender_in_groups`
(lines 293-347).  `non_grad_groups` is the list captured once before the loop
(line 267), so its group contents are the initial ones even after swaps have
been accepted — exactly as in the source.  The three `continue` paths return
the state unchanged (in particular they skip the temperature annealing of line
347, which the two paths reaching the acceptance test perform). -/
noncomputable def balance_step (non_grad_groups : List (Nat × Group))
    (initial_member_ids : Finset Int) (R : Rand) (iteration : Nat)
    (st : BalState) : BalState :=
  let p1 := non_grad_groups.getD (R.pickG1 iteration % non_grad_groups.length)
    (0, Group.mk [])
  let p2 := non_grad_groups.getD (R.pickG2 iteration % non_grad_groups.length)
    (0, Group.mk [])
  if p1.1 = p2.1 then st
  else
    let swappable_pairs := p1.2.members.flatMap
      (fun m1 => (p2.2.members.filter (fun m2 => can_swap m1 m2)).map (fun m2 => (m1, m2)))
    if swappable_pairs = [] then st
    else
      let pr := swappable_pairs.getD (R.pickPair iteration % swappable_pairs.length)
        (default_member, default_member)
      let g1_members := p1.2.members.map (fun m => if m = pr.1 then pr.2 else m)
      let g2_members := p2.2.members.map (fun m => if m = pr.2 then pr.1 else m)
      let temp_groups :=
        (st.balanced_groups.set p1.1 (Group.mk g1_members)).set p2.1 (Group.mk g2_members)
      if get_member_ids temp_groups ≠ initial_member_ids then st
      else
        let new_entropy := calculate_gender_entropy temp_groups
        let delta_entropy := new_entropy - st.current_entropy
        if 0 < delta_entropy ∨ R.coin iteration = true then
          if st.best_entropy < new_entropy then
            ⟨temp_groups, new_entropy, new_entropy, temp_groups, st.temperature * 0.999⟩
          else
            ⟨temp_groups, new_entropy, st.best_entropy, st.best_groups,
              st.temperature * 0.999⟩
        else
          ⟨st.balanced_groups, st.current_entropy, st.best_entropy, st.best_groups,
            st.temperature * 0.999⟩

end

/-- Runs `balance_step` for the remaining number of iterations, with the first
argument of the pair counting the current iteration index (`for iteration in
range(max_iterations)`). -/
noncomputable def balance_loop (non_grad_groups : List (Nat × Group))
    (initial_member_ids : Finset Int) (R : Rand) :
    Nat → Nat → BalState → BalState
  | 0, _, st => st
  | n + 1, iteration, st =>
    balance_loop non_grad_groups initial_member_ids R n (iteration + 1)
      (balance_step non_grad_groups initial_member_ids R iteration st)

/-- Mirrors `balance_gender_in_groups` (lines 151-357).  The deep copy of line
264 is the identity on immutable values; `enumerate` is `List.enum`. -/
noncomputable def balance_gender_in_groups (groups : List Group)
    (max_iterations : Nat) (temperature : ℝ) (R : Rand) : List Group :=
  let balanced_groups := groups.map (fun group => Group.mk group.members)
  let non_grad_groups := balanced_groups.enum.filter (fun p => is_non_graduate_group p.2)
  if non_grad_groups.length < 2 then groups
  else
    let initial_member_ids := get_member_ids balanced_groups
    let current_entropy := calculate_gender_entropy balanced_groups
    let final := balance_loop non_grad_groups initial_member_ids R max_iterations 0
      ⟨balanced_groups, current_entropy, current_entropy, balanced_groups, temperature⟩
    if has_duplicates final.best_groups then groups else final.best_groups

/-- Size of group `i` (python `len(groups[i].members)`). -/
def group_size (groups : List Group) (i : Nat) : Nat :=
  (groups.getD i (Group.mk [])).members.length

/-- Appends a member to `groups[i].members` (python
`groups[i].members.append(m)`); a no-op when `i` is out of range, which never
happens in the modelled code. -/
def appendAt (groups : List Group) (i : Nat) (m : GroupMember) : List Group :=
  groups.set i (Group.mk ((groups.getD i (Group.mk [])).members ++ [m]))

/-- First index in `cands` minimising `key` — python
`min(cands, key=...)`, which returns the first minimiser. -/
def first_min_idx (key : Nat → Nat) : List Nat → Nat
  | [] => 0
  | i :: is => is.foldl (fun acc j => if key j < key acc then j else acc) i

/-- Inner loop of the prep seeding (lines 437-440): appends up to `n` members
from `rest` to group `i`, guarded by `prep_index < len(prep_attendees)`. -/
def append_n_prep : List Group → Nat → Nat → List GroupMember →
    List Group × List GroupMember
  | groups, _, 0, rest => (groups, rest)
  | groups, i, n + 1, rest =>
    match rest with
    | [] => (groups, [])
    | m :: rest => append_n_prep (appendAt groups i m) i n rest

/-- Outer loop of the prep seeding (lines 435-440): gives each group index its
`min_prep_per_group` prep attendees. -/
def distribute_min_prep : List Group → List Nat → Nat → List GroupMember →
    List Group × List GroupMember
  | groups, [], _, rest => (groups, rest)
  | groups, i :: is, min_prep, rest =>
    let pr := append_n_prep groups i min_prep rest
    distribute_min_prep pr.1 is min_prep pr.2

/-- The extras loop of the prep seeding (lines 442-446): one more prep
attendee for each of the first `extra_prep` shuffled group indices. -/
def distribute_extra_prep : List Group → List Nat → List GroupMember →
    List Group × List GroupMember
  | groups, [], rest => (groups, rest)
  | groups, i :: is, rest =>
    match rest with
    | [] => (groups, [])
    | m :: rest => distribute_extra_prep (appendAt groups i m) is rest

/-- First/second leader pass (lines 474-479 and 489-493): for each listed
group index, pop the last remaining leader (`list.pop()`) and append it there,
recording it as assigned. -/
def assign_one_each : List Group → List GroupMember → List GroupMember → List Nat →
    List Group × List GroupMember × List GroupMember
  | groups, rem, assigned, [] => (groups, rem, assigned)
  | groups, rem, assigned, i :: is =>
    match rem.getLast? with
    | none => assign_one_each groups rem assigned is
    | some m => assign_one_each (appendAt groups i m) rem.dropLast (assigned ++ [m]) is

/-- Stable sort of group indices by group size (python `available_groups.sort
(key=lambda i: len(groups[i].members))`). -/
def sort_by_size (groups : List Group) (avail : List Nat) : List Nat :=
  List.insertionSort (fun i j => group_size groups i ≤ group_size groups j) avail

/-- Third pass (lines 495-509): every leftover facilitator goes to the group
at the head of the size-sorted index list, which is re-sorted after each
placement. -/
def distribute_rest_facs : List Group → List Nat → List GroupMember →
    List GroupMember → List Group × List GroupMember
  | groups, _, assigned, [] => (groups, assigned)
  | groups, avail, assigned, f :: fs =>
    let i := avail.headD 0
    let groups' := appendAt groups i f
    distribute_rest_facs groups' (sort_by_size groups' avail) (assigned ++ [f]) fs

/-- Number of counselors in group `i`. -/
def couns_count (groups : List Group) (i : Nat) : Nat :=
  (groups.getD i (Group.mk [])).members.countP (fun m => m.role == MemberRole.COUNSELOR)

/-- Stable sort of group indices by the Python tuple key
`(counselor count, size)` compared lexicographically (lines 517-523). -/
def sort_by_couns (groups : List Group) (avail : List Nat) : List Nat :=
  List.insertionSort (fun i j =>
    couns_count groups i < couns_count groups j ∨
      (couns_count groups i = couns_count groups j ∧
        group_size groups i ≤ group_size groups j)) avail

/-- Fourth pass (lines 511-529): while counselors remain, re-sort the index
list by `(counselor count, size)` and append the popped (last) counselor to
the head group.  The argument list is the remaining counselors already
reversed, so that `pop()` becomes taking the head. -/
def distribute_rest_couns : List Group → List Nat → List GroupMember →
    List GroupMember → List Group × List GroupMember
  | groups, _, assigned, [] => (groups, assigned)
  | groups, avail, assigned, c :: cs =>
    let avail' := sort_by_couns groups avail
    let i := avail'.headD 0
    distribute_rest_couns (appendAt groups i c) avail' (assigned ++ [c]) cs

/-- Number of graduates (`education_status == "graduated"`) in group `i`,
the sort key of line 544-549. -/
def grad_count (groups : List Group) (i : Nat) : Nat :=
  (groups.getD i (Group.mk [])).members.countP
    (fun m => m.education_status == "graduated")

/-- Graduate distribution (lines 556-563): each graduate joins the smallest
group among the designated candidate indices (first minimiser in ascending
index order, recomputed after every placement).  The source also adds each
placed graduate to `assigned_members`, but that set is never read again, so it
is not threaded here. -/
def distribute_members_min : List Group → List Nat → List GroupMember → List Group
  | groups, _, [] => groups
  | groups, cands, m :: ms =>
    distribute_members_min (appendAt groups (first_min_idx (group_size groups) cands) m)
      cands ms

/-- Student distribution (lines 570-596): like `distribute_members_min` over
the candidate indices, but guarded by the `distributed_students` set (`seen`),
exactly as in the source. -/
def distribute_students_min : List Group → List Nat → List GroupMember →
    List GroupMember → List Group
  | groups, _, _, [] => groups
  | groups, cands, seen, s :: ss =>
    if s ∈ seen then distribute_students_min groups cands seen ss
    else
      distribute_students_min (appendAt groups (first_min_idx (group_size groups) cands) s)
        cands (seen ++ [s]) ss

/-- The recomputed number of groups of line 385:
`max(1, (total_present + TARGET_SIZE - 1) // TARGET_SIZE)` with
`TARGET_SIZE = 7`.  The `num_groups` argument of the function is discarded. -/
def num_groups_of (members : List GroupMember) : Nat :=
  max 1 (((members.filter (fun m => m.is_present)).length + 7 - 1) / 7)

/-- Prep seeding (lines 421-446): from `num_groups` empty groups, give each
shuffled group index its `total_prep // num_groups` prep attendees, then one
extra to each of the first `total_prep % num_groups` shuffled indices. -/
def divide_prep_phase (num_groups : Nat) (group_indices : List Nat)
    (prep_attendees : List GroupMember) : List Group :=
  let groups0 : List Group := (List.range num_groups).map (fun _ => Group.mk [])
  let total_prep := prep_attendees.length
  let min_prep_per_group := total_prep / num_groups
  let extra_prep := total_prep % num_groups
  let pr1 := distribute_min_prep groups0 group_indices min_prep_per_group prep_attendees
  (distribute_extra_prep pr1.1 (group_indices.take extra_prep) pr1.2).1

/-- Leader passes and distribution of the remaining members
(lines 448-596), starting from the groups produced by the prep seeding. -/
def divide_leaders_and_rest (present_members : List GroupMember) (R : Rand)
    (num_groups : Nat) (prep_attendees : List GroupMember)
    (groups1 : List Group) : List Group :=
  -- `assigned_members = set(prep_attendees)` (line 449), as a list
  let assigned1 := prep_attendees
  -- 2. leaders (lines 451-529)
  let remaining_facilitators := R.shuffleFacs (present_members.filter
    (fun m => m.role == MemberRole.FACILITATOR && !(assigned1.contains m)))
  let remaining_counselors := R.shuffleCouns (present_members.filter
    (fun m => m.role == MemberRole.COUNSELOR && !(assigned1.contains m)))
  let groups_without_facilitators := (groups1.enum.filter
    (fun p => !(p.2.members.any (fun m => m.role == MemberRole.FACILITATOR)))).map
      (fun p => p.1)
  let t1 := assign_one_each groups1 remaining_facilitators assigned1
    groups_without_facilitators
  let groups2 := t1.1
  let remaining_facilitators2 := t1.2.1
  let assigned2 := t1.2.2
  let groups_without_counselors := (groups2.enum.filter
    (fun p => !(p.2.members.any (fun m => m.role == MemberRole.COUNSELOR)))).map
      (fun p => p.1)
  let t2 := assign_one_each groups2 remaining_counselors assigned2
    groups_without_counselors
  let groups3 := t2.1
  let remaining_counselors2 := t2.2.1
  let assigned3 := t2.2.2
  let t3 :=
    if remaining_facilitators2 = [] then (groups3, assigned3)
    else distribute_rest_facs groups3
      (sort_by_size groups3 (R.shuffleAvail (List.range num_groups))) assigned3
      remaining_facilitators2
  let groups4 := t3.1
  let assigned4 := t3.2
  let t4 :=
    if remaining_counselors2 = [] then (groups4, assigned4)
    else distribute_rest_couns groups4 (List.range num_groups) assigned4
      remaining_counselors2.reverse
  let groups5 := t4.1
  let assigned5 := t4.2
  -- 3. remaining members (lines 531-596)
  let unassigned := present_members.filter (fun m => !(assigned5.contains m))
  let graduates := unassigned.filter (fun m => m.education_status == "graduated")
  let current_students := unassigned.filter (fun m => !(m.education_status == "graduated"))
  let num_grad_groups := (graduates.length + 7 - 1) / 7
  if graduates = [] then
    distribute_students_min groups5 (List.range num_groups) [] current_students
  else
    let sorted_idxs := List.insertionSort
      (fun i j => grad_count groups5 j ≤ grad_count groups5 i) (List.range num_groups)
    let grad_group_indices := sorted_idxs.take num_grad_groups
    let grad_cands := (List.range num_groups).filter
      (fun i => grad_group_indices.contains i)
    let g6 := distribute_members_min groups5 grad_cands graduates
    let non_grad_cands := (List.range num_groups).filter
      (fun i => !(grad_group_indices.contains i))
    if non_grad_cands ≠ [] then
      distribute_students_min g6 non_grad_cands [] current_students
    else
      distribute_students_min g6 (List.range num_groups) [] current_students

/-- Construction phases of `divide_into_groups` (lines 379-596): everything up
to, but not including, the final gender-balancing call. -/
def divide_construct (members : List GroupMember) (R : Rand) : List Group :=
  let present_members := members.filter (fun m => m.is_present)
  let num_groups := num_groups_of members
  let prep_attendees := R.shufflePrep (present_members.filter (fun m => m.prep_attended))
  let group_indices := R.shuffleIdx (List.range num_groups)
  divide_leaders_and_rest present_members R num_groups prep_attendees
    (divide_prep_phase num_groups group_indices prep_attendees)

/-- Mirrors `divide_into_groups` (lines 360-602): the construction phases
followed by the gender balancing of lines 598-600 (performed exactly when
`max_iterations > 0`, with the default temperature 0.1).  The `num_groups0`
argument mirrors the function's `num_groups` parameter, which line 385
discards. -/
noncomputable def divide_into_groups (members : List GroupMember)
    (num_groups0 : Nat) (max_iterations : Nat) (R : Rand) : List Group :=
  if 0 < max_iterations then
    balance_gender_in_groups (divide_construct members R) max_iterations 0.1 R
  else divide_construct members R

/-- C10: `MemberRole.from_db_role` is total on strings: it sends the
lower-cased forms "facilitator" and "counselor" to the corresponding roles and
every other string (including "none" and "regular") to `REGULAR`. -/
theorem from_db_role_total (s : String) :
    MemberRole.from_db_role s =
      (if s.toLower = "facilitator" then .FACILITATOR
       else if s.toLower = "counselor" then .COUNSELOR
       else .REGULAR) := by
  unfold MemberRole.from_db_role
  cases e1 : (s.toLower == "facilitator") <;>
    cases e2 : (s.toLower == "counselor") <;>
      cases e3 : (s.toLower == "none") <;>
        cases e4 : (s.toLower == "regular") <;>
          (simp only [List.lookup, e1, e2, e3, e4]) <;> simp_all

lemma length_filter_enumFrom (q : Group → Bool) (l : List Group) : ∀ (n : Nat),
    ((List.enumFrom n l).filter (fun p => q p.2)).length = l.countP q := by
  induction l with
  | nil => intro n; rfl
  | cons a t ih =>
    intro n
    simp only [List.enumFrom, List.filter_cons, List.countP_cons]
    cases h : q a <;> simp [ih, h]

/-- C9: when fewer than two groups qualify as non-graduate groups,
`balance_gender_in_groups` returns its input partition unchanged, for every
iteration budget, temperature and randomness. -/
theorem balance_frame_few_nongrad (groups : List Group) (max_iterations : Nat)
    (temperature : ℝ) (R : Rand)
    (h : groups.countP (fun g => is_non_graduate_group g) < 2) :
    balance_gender_in_groups groups max_iterations temperature R = groups := by
  have hmap : groups.map (fun group => Group.mk group.members) = groups :=
    List.map_id' groups
  unfold balance_gender_in_groups
  rw [hmap]
  rw [if_pos]
  rw [List.enum, length_filter_enumFrom]
  exact h

/-- Witness for C9 at a concrete input: a two-group partition whose second
group has a graduated regular member (hence only one non-graduate group). -/
theorem balance_frame_few_nongrad_witness :
    balance_gender_in_groups
      [Group.mk [⟨1, "a", "b", .REGULAR, "M", "x", "student", false, true, false⟩],
       Group.mk [⟨2, "c", "d", .REGULAR, "F", "x", "graduated", true, true, false⟩]]
      1000 0.1 trivialRand =
      [Group.mk [⟨1, "a", "b", .REGULAR, "M", "x", "student", false, true, false⟩],
       Group.mk [⟨2, "c", "d", .REGULAR, "F", "x", "graduated", true, true, false⟩]] :=
  balance_frame_few_nongrad _ 1000 0.1 trivialRand (by decide)

/-- C6 (counterexample to the claim): with zero members present the code does
not raise anything — it returns a partition consisting of one empty group. -/
theorem divide_empty_counterexample :
    divide_into_groups [] 3 1000 trivialRand = [Group.mk []] := by decide

/-- C6 (amended): whenever no member of the input is present,
`divide_into_groups` returns the one-empty-group partition (and raises no
error), for every group-count hint, iteration budget and valid randomness. -/
theorem divide_empty_amended (members : List GroupMember)
    (num_groups0 max_iterations : Nat) (R : Rand) (hR : R.Valid)
    (h : members.filter (fun m => m.is_present) = []) :
    divide_into_groups members num_groups0 max_iterations R = [Group.mk []] := by
  obtain ⟨hP, hI, hF, hC, _⟩ := hR
  have hk : num_groups_of members = 1 := by simp [num_groups_of, h]
  have hprep : R.shufflePrep [] = [] := (hP []).eq_nil
  have hidx : R.shuffleIdx [0] = [0] := List.perm_singleton.mp (hI [0])
  have hfacs : R.shuffleFacs [] = [] := (hF []).eq_nil
  have hcouns : R.shuffleCouns [] = [] := (hC []).eq_nil
  have hcon : divide_construct members R = [Group.mk []] := by
    simp only [divide_construct, h, hk, List.filter_nil, hprep]
    rw [show List.range 1 = [0] from rfl, hidx]
    simp only [divide_leaders_and_rest, List.filter_nil, hfacs, hcouns]
    rfl
  unfold divide_into_groups
  rw [hcon]
  cases max_iterations with
  | zero => rfl
  | succ n =>
    rw [if_pos (Nat.succ_pos n)]
    exact balance_frame_few_nongrad _ _ _ _ (by decide)

/-- Witness for the amended C6. -/
theorem divide_empty_amended_witness :
    divide_into_groups
      [⟨1, "a", "b", .REGULAR, "M", "x", "student", false, false, false⟩]
      2 50 trivialRand = [Group.mk []] :=
  divide_empty_amended _ 2 50 trivialRand trivialRand_valid (by decide)

/-- C3 (counterexample): a single present regular member yields a partition
with a group of size 1 < 4 (the repository's own `test_single_member` asserts
exactly this behavior). -/
theorem divide_min_size_counterexample :
    ∃ g ∈ divide_into_groups
      [⟨1, "a", "b", .REGULAR, "M", "x", "student", false, true, false⟩]
      2 0 trivialRand, g.members.length < 4 := by decide

/-- Input for the C4 counterexample: one present facilitator and fifteen
present regular students (so three groups are formed but only one leader
exists). -/
def c4_members : List GroupMember :=
  ⟨0, "a", "b", .FACILITATOR, "M", "x", "student", false, true, false⟩ ::
    (List.range 15).map
      (fun i => ⟨(i : Int) + 1, "a", "b", .REGULAR, "M", "x", "student", false, true, false⟩)

/-- C4 (counterexample): the input has a present leader and no graduates (so
every output group is non-graduate-designated), yet some output group contains
no facilitator and no counselor. -/
theorem divide_leader_coverage_counterexample :
    (∃ m ∈ c4_members, m.is_present = true ∧
      (m.role = MemberRole.FACILITATOR ∨ m.role = MemberRole.COUNSELOR)) ∧
    (∀ m ∈ c4_members, ¬ m.education_status = "graduated") ∧
    ∃ g ∈ divide_into_groups c4_members 3 0 trivialRand,
      ∀ m ∈ g.members,
        ¬(m.role = MemberRole.FACILITATOR ∨ m.role = MemberRole.COUNSELOR) := by
  decide

/-- Shannon entropy of the composite labels `(gender, faith_status, role)`
over a group's members.  Modelled from the spec: "Compute Shannon entropy of
the multiset of composite labels (gender, faith_status, role) per member: for
each distinct label with relative frequency p, accumulate -p·ln(p)". -/
noncomputable def spec_composite_entropy (g : Group) : ℝ :=
  let labels := g.members.map (fun m => (m.gender, m.faith_status, m.role))
  (labels.dedup.map
    (fun c => Real.negMulLog ((labels.count c : ℝ) / (labels.length : ℝ)))).sum

/-- Member pair from the repository's failing test
`test_diversity_score_properties` (role-diversity branch): identical except
for the role. -/
def c5_role_member : GroupMember :=
  ⟨0, "Test", "0", .FACILITATOR, "M", "b", "undergraduate", false, true, false⟩

def c5_base_member : GroupMember :=
  ⟨1, "Test", "1", .REGULAR, "M", "b", "undergraduate", false, true, false⟩

/-- C5 (code bug): on a two-member group differing only in role, the
penalty-free term computed by `calculate_diversity_score` is `0` — the code
keys its Counter on `gender_faith_status` only — whereas the spec's composite
(gender, faith_status, role) Shannon entropy is `ln 2 > 0`.  The repository's
own test (`role_diverse_score > homogeneous_score` in
`tests/test_group_divider.py`) requires the role to contribute, so the code
contradicts its own test suite here. -/
theorem diversity_score_ignores_role :
    Group.calculate_diversity_score (Group.mk [c5_role_member, c5_base_member]) none = 0 ∧
    spec_composite_entropy (Group.mk [c5_role_member, c5_base_member]) = Real.log 2 ∧
    (0 : ℝ) < Real.log 2 := by
  refine ⟨?_, ?_, Real.log_pos (by norm_num)⟩
  · have h1 : (Group.mk [c5_role_member, c5_base_member]).members.map characteristic
        = ["M_b", "M_b"] := rfl
    have h2 : (["M_b", "M_b"] : List String).dedup = ["M_b"] := rfl
    simp only [Group.calculate_diversity_score, h1, h2]
    norm_num [Real.negMulLog]
  · have h1 : (Group.mk [c5_role_member, c5_base_member]).members.map
        (fun m => (m.gender, m.faith_status, m.role))
        = [("M", "b", MemberRole.FACILITATOR), ("M", "b", MemberRole.REGULAR)] := rfl
    have h2 : ([("M", "b", MemberRole.FACILITATOR), ("M", "b", MemberRole.REGULAR)]
        : List (String × String × MemberRole)).dedup
        = [("M", "b", MemberRole.FACILITATOR), ("M", "b", MemberRole.REGULAR)] := by decide
    simp only [spec_composite_entropy, h1, h2]
    have hc1 : ([("M", "b", MemberRole.FACILITATOR), ("M", "b", MemberRole.REGULAR)]
        : List (String × String × MemberRole)).count ("M", "b", MemberRole.FACILITATOR)
        = 1 := by decide
    have hc2 : ([("M", "b", MemberRole.FACILITATOR), ("M", "b", MemberRole.REGULAR)]
        : List (String × String × MemberRole)).count ("M", "b", MemberRole.REGULAR)
        = 1 := by decide
    simp only [hc1, hc2, List.map_cons, List.map_nil, List.sum_cons, List.sum_nil,
      List.length_cons, List.length_nil]
    have hq : (((1 : Nat) : ℝ) / (((0 + 1 + 1 : Nat) : ℝ))) = (2⁻¹ : ℝ) := by norm_num
    rw [hq, Real.negMulLog, Real.log_inv]
    ring

/-! Invariants of the balancing loop. -/

/-- Concatenation of all members of a partition, in order. -/
def members_of (groups : List Group) : List GroupMember :=
  groups.flatMap (fun g => g.members)

lemma all_member_ids_eq (groups : List Group) :
    all_member_ids groups = (members_of groups).map (fun m => m.id) := by
  rw [all_member_ids, members_of, List.map_flatMap]

lemma get_member_ids_eq (groups : List Group) :
    get_member_ids groups = (all_member_ids groups).toFinset := rfl

/-- Attributes preserved by every eligible swap: role, prep attendance and
graduation status (`can_swap` equates the first two and forces the third to be
false on both sides). -/
def swapKey (m : GroupMember) : MemberRole × Bool × Bool :=
  (m.role, m.prep_attended, m.is_graduated)

lemma can_swap_key {m1 m2 : GroupMember} (h : can_swap m1 m2 = true) :
    swapKey m1 = swapKey m2 := by
  simp only [can_swap, Bool.and_eq_true, bne_iff_ne, beq_iff_eq, Bool.not_eq_true'] at h
  obtain ⟨⟨⟨⟨_, hrole⟩, hprep⟩, hg1⟩, hg2⟩ := h
  simp [swapKey, hrole, hprep, hg1, hg2]

/-- Relation between a group of the initial partition and the group standing
at the same position in the current partition: equal multiset of swap keys,
and all members drawn from the initial member pool. -/
def GInv (init : List Group) (gi gc : Group) : Prop :=
  List.Perm (gc.members.map swapKey) (gi.members.map swapKey) ∧
    ∀ m ∈ gc.members, m ∈ members_of init

/-- Position-wise invariant between the initial partition and the current one. -/
def PartInv (init cur : List Group) : Prop := List.Forall₂ (GInv init) init cur

lemma partInv_refl (init : List Group) : PartInv init init :=
  List.forall₂_same.mpr
    (fun g hg => ⟨List.Perm.refl _, fun m hm => List.mem_flatMap.mpr ⟨g, hg, hm⟩⟩)

lemma forall2_members_length {Rl : Group → Group → Prop}
    (hR : ∀ gi gc, Rl gi gc → gc.members.length = gi.members.length) :
    ∀ {l1 l2 : List Group}, List.Forall₂ Rl l1 l2 →
      (members_of l2).length = (members_of l1).length := by
  intro l1 l2 h
  induction h with
  | nil => rfl
  | @cons gi gc ti tc hr _ ih =>
    simp only [members_of, List.flatMap_cons, List.length_append] at ih ⊢
    rw [hR gi gc hr, ih]

lemma forall2_subset_pool {Rl : Group → Group → Prop} {P : GroupMember → Prop}
    (hR : ∀ gi gc, Rl gi gc → ∀ m ∈ gc.members, P m) :
    ∀ {l1 l2 : List Group}, List.Forall₂ Rl l1 l2 →
      ∀ m ∈ members_of l2, P m := by
  intro l1 l2 h
  induction h with
  | nil => intro m hm; simp [members_of] at hm
  | @cons gi gc ti tc hr _ ih =>
    intro m hm
    simp only [members_of, List.flatMap_cons, List.mem_append] at hm
    rcases hm with hm | hm
    · exact hR gi gc hr m hm
    · exact ih m hm

lemma forall2_set {α : Type} {Rl : α → α → Prop} :
    ∀ {l1 l2 : List α}, List.Forall₂ Rl l1 l2 →
      ∀ (i : Nat) (a : α), (∀ hi : i < l1.length, Rl (l1.get ⟨i, hi⟩) a) →
      List.Forall₂ Rl l1 (l2.set i a) := by
  intro l1 l2 h
  induction h with
  | nil => intro i a _; simpa using List.Forall₂.nil
  | @cons x y tx ty hr hf ih =>
    intro i a ha
    cases i with
    | zero => exact List.Forall₂.cons (ha (by simp)) hf
    | succ n =>
      exact List.Forall₂.cons hr
        (ih n a (fun hi => ha (by simpa using Nat.succ_lt_succ hi)))

lemma PartInv.members_length {init cur : List Group} (h : PartInv init cur) :
    (members_of cur).length = (members_of init).length :=
  forall2_members_length (fun _ _ hr => by simpa using hr.1.length_eq) h

lemma PartInv.subset_pool {init cur : List Group} (h : PartInv init cur) :
    ∀ m ∈ members_of cur, m ∈ members_of init :=
  forall2_subset_pool (fun _ _ hr => hr.2) h

lemma PartInv.set {init cur : List Group} (h : PartInv init cur) (i : Nat) (c : Group)
    (hc : ∀ hi : i < init.length, GInv init (init.get ⟨i, hi⟩) c) :
    PartInv init (cur.set i c) :=
  forall2_set h i c hc

lemma group_subset_pool {init : List Group} {i : Nat} (hi : i < init.length) :
    ∀ m ∈ (init.get ⟨i, hi⟩).members, m ∈ members_of init :=
  fun m hm => List.mem_flatMap.mpr ⟨init.get ⟨i, hi⟩, List.get_mem init i hi, hm⟩

/-- Invariant carried by the loop state for both the working partition and the
best partition seen. -/
def StOK (init : List Group) (st : BalState) : Prop :=
  PartInv init st.balanced_groups ∧ PartInv init st.best_groups

/-- All-members permutation carried for both partitions of the state. -/
def StJoined (init : List Group) (st : BalState) : Prop :=
  List.Perm (members_of st.balanced_groups) (members_of init) ∧
    List.Perm (members_of st.best_groups) (members_of init)

/-- A partition position-wise related to `init` whose id set matches and whose
ids were initially duplicate-free is a permutation of `init`. -/
lemma perm_of_id_check {init temp : List Group} (hP : PartInv init temp)
    (hnd : (all_member_ids init).Nodup)
    (hids : get_member_ids temp = get_member_ids init) :
    List.Perm (members_of temp) (members_of init) := by
  have hlen : (members_of temp).length = (members_of init).length := hP.members_length
  have hlen_ids : (all_member_ids temp).length = (all_member_ids init).length := by
    rw [all_member_ids_eq, all_member_ids_eq, List.length_map, List.length_map, hlen]
  have hcard : (all_member_ids temp).toFinset.card = (all_member_ids temp).length := by
    rw [show (all_member_ids temp).toFinset = (all_member_ids init).toFinset from hids,
      List.toFinset_card_of_nodup hnd, hlen_ids]
  have hnd2 : (all_member_ids temp).Nodup :=
    Multiset.toFinset_card_eq_card_iff_nodup.mp hcard
  have hndm : (members_of temp).Nodup := by
    rw [all_member_ids_eq] at hnd2
    exact List.Nodup.of_map _ hnd2
  exact (List.subperm_of_subset hndm hP.subset_pool).perm_of_length_le (le_of_eq hlen.symm)

lemma mem_of_getD_pairs {l : List (Nat × Group)} (hne : l ≠ []) (k : Nat) (d : Nat × Group) :
    l.getD (k % l.length) d ∈ l := by
  have hl : 0 < l.length := List.length_pos.mpr hne
  rw [List.getD_eq_getElem l d (Nat.mod_lt _ hl)]
  exact List.getElem_mem _

lemma mem_of_getD_mempairs {l : List (GroupMember × GroupMember)} (hne : l ≠ [])
    (k : Nat) (d : GroupMember × GroupMember) : l.getD (k % l.length) d ∈ l := by
  have hl : 0 < l.length := List.length_pos.mpr hne
  rw [List.getD_eq_getElem l d (Nat.mod_lt _ hl)]
  exact List.getElem_mem _

/-- Shape of the hypothesis recording that `non_grad_groups` was captured from
the initial partition (line 267). -/
def NgFrom (init : List Group) (ng : List (Nat × Group)) : Prop :=
  ∀ p ∈ ng, p.1 < init.length ∧ p.2 = init.getD p.1 (Group.mk [])

lemma swapped_GInv {init : List Group} {i : Nat} (hi : i < init.length)
    {a b : GroupMember} (hkey : swapKey a = swapKey b)
    (hb : b ∈ members_of init) :
    GInv init (init.get ⟨i, hi⟩)
      (Group.mk ((init.getD i (Group.mk [])).members.map
        (fun m => if m = a then b else m))) := by
  rw [List.getD_eq_getElem init (Group.mk []) hi]
  constructor
  · have : ((init[i].members.map (fun m => if m = a then b else m)).map swapKey)
        = init[i].members.map swapKey := by
      rw [List.map_map]
      refine List.map_congr_left (fun m _ => ?_)
      by_cases hm : m = a
      · simp [hm, hkey.symm]
      · simp [hm]
    exact List.Perm.of_eq this
  · intro m hm
    simp only [List.mem_map] at hm
    obtain ⟨m0, hm0, hrw⟩ := hm
    by_cases hm0a : m0 = a
    · rw [← hrw]; simp [hm0a, hb]
    · rw [← hrw]; simp only [if_neg hm0a]
      exact group_subset_pool hi m0 hm0

lemma balance_step_StOK {init : List Group} {ng : List (Nat × Group)}
    {ids : Finset Int} {R : Rand} {it : Nat} {st : BalState}
    (hng : NgFrom init ng) (h : StOK init st) :
    StOK init (balance_step ng ids R it st) := by
  unfold balance_step
  dsimp only
  generalize hp1 : ng.getD (R.pickG1 it % ng.length) (0, Group.mk []) = p1
  generalize hp2 : ng.getD (R.pickG2 it % ng.length) (0, Group.mk []) = p2
  by_cases h12 : p1.1 = p2.1
  · rw [if_pos h12]; exact h
  · rw [if_neg h12]
    generalize hsp : (p1.2.members.flatMap fun m1 =>
        List.map (fun m2 => (m1, m2))
          (List.filter (fun m2 => can_swap m1 m2) p2.2.members)) = sp
    by_cases hspe : sp = []
    · rw [if_pos hspe]; exact h
    · rw [if_neg hspe]
      generalize hpr :
        sp.getD (R.pickPair it % sp.length) (default_member, default_member) = pr
      have hngne : ng ≠ [] := by
        intro hnil
        apply h12
        rw [hnil] at hp1 hp2
        rw [← hp1, ← hp2]
        rfl
      obtain ⟨hlt1, heq1⟩ := hng p1 (hp1 ▸ mem_of_getD_pairs hngne (R.pickG1 it) _)
      obtain ⟨hlt2, heq2⟩ := hng p2 (hp2 ▸ mem_of_getD_pairs hngne (R.pickG2 it) _)
      have hprm : pr ∈ sp := hpr ▸ mem_of_getD_mempairs hspe (R.pickPair it) _
      rw [← hsp] at hprm
      simp only [List.mem_flatMap, List.mem_map, List.mem_filter] at hprm
      obtain ⟨m1, hm1, m2, ⟨hm2, hcs⟩, hpreq⟩ := hprm
      have hkey : swapKey m1 = swapKey m2 := can_swap_key hcs
      have hm1p : m1 ∈ members_of init := by
        rw [heq1, List.getD_eq_getElem init (Group.mk []) hlt1] at hm1
        exact group_subset_pool hlt1 m1 hm1
      have hm2p : m2 ∈ members_of init := by
        rw [heq2, List.getD_eq_getElem init (Group.mk []) hlt2] at hm2
        exact group_subset_pool hlt2 m2 hm2
      have hpr1 : pr.1 = m1 := by rw [← hpreq]
      have hpr2 : pr.2 = m2 := by rw [← hpreq]
      have htemp : PartInv init
          ((st.balanced_groups.set p1.1
              (Group.mk (p1.2.members.map (fun m => if m = pr.1 then pr.2 else m)))).set
            p2.1
            (Group.mk (p2.2.members.map (fun m => if m = pr.2 then pr.1 else m)))) := by
        refine (h.1.set p1.1 _ (fun hi => ?_)).set p2.1 _ (fun hi => ?_)
        · rw [heq1, hpr1, hpr2]
          exact swapped_GInv hlt1 hkey hm2p
        · rw [heq2, hpr1, hpr2]
          exact swapped_GInv hlt2 hkey.symm hm1p
      by_cases hchk : get_member_ids
          ((st.balanced_groups.set p1.1
              (Group.mk (p1.2.members.map (fun m => if m = pr.1 then pr.2 else m)))).set
            p2.1
            (Group.mk (p2.2.members.map (fun m => if m = pr.2 then pr.1 else m)))) ≠ ids
      · rw [if_pos hchk]; exact h
      · rw [if_neg hchk]
        split
        · split
          · exact ⟨htemp, htemp⟩
          · exact ⟨htemp, h.2⟩
        · exact ⟨h.1, h.2⟩

lemma balance_step_StJoined {init : List Group} {ng : List (Nat × Group)}
    {ids : Finset Int} {R : Rand} {it : Nat} {st : BalState}
    (hng : NgFrom init ng) (hids : ids = get_member_ids init)
    (hnd : (all_member_ids init).Nodup)
    (h : StOK init st) (hj : StJoined init st) :
    StJoined init (balance_step ng ids R it st) := by
  unfold balance_step
  dsimp only
  generalize hp1 : ng.getD (R.pickG1 it % ng.length) (0, Group.mk []) = p1
  generalize hp2 : ng.getD (R.pickG2 it % ng.length) (0, Group.mk []) = p2
  by_cases h12 : p1.1 = p2.1
  · rw [if_pos h12]; exact hj
  · rw [if_neg h12]
    generalize hsp : (p1.2.members.flatMap fun m1 =>
        List.map (fun m2 => (m1, m2))
          (List.filter (fun m2 => can_swap m1 m2) p2.2.members)) = sp
    by_cases hspe : sp = []
    · rw [if_pos hspe]; exact hj
    · rw [if_neg hspe]
      generalize hpr :
        sp.getD (R.pickPair it % sp.length) (default_member, default_member) = pr
      have hngne : ng ≠ [] := by
        intro hnil
        apply h12
        rw [hnil] at hp1 hp2
        rw [← hp1, ← hp2]
        rfl
      obtain ⟨hlt1, heq1⟩ := hng p1 (hp1 ▸ mem_of_getD_pairs hngne (R.pickG1 it) _)
      obtain ⟨hlt2, heq2⟩ := hng p2 (hp2 ▸ mem_of_getD_pairs hngne (R.pickG2 it) _)
      have hprm : pr ∈ sp := hpr ▸ mem_of_getD_mempairs hspe (R.pickPair it) _
      rw [← hsp] at hprm
      simp only [List.mem_flatMap, List.mem_map, List.mem_filter] at hprm
      obtain ⟨m1, hm1, m2, ⟨hm2, hcs⟩, hpreq⟩ := hprm
      have hkey : swapKey m1 = swapKey m2 := can_swap_key hcs
      have hm1p : m1 ∈ members_of init := by
        rw [heq1, List.getD_eq_getElem init (Group.mk []) hlt1] at hm1
        exact group_subset_pool hlt1 m1 hm1
      have hm2p : m2 ∈ members_of init := by
        rw [heq2, List.getD_eq_getElem init (Group.mk []) hlt2] at hm2
        exact group_subset_pool hlt2 m2 hm2
      have hpr1 : pr.1 = m1 := by rw [← hpreq]
      have hpr2 : pr.2 = m2 := by rw [← hpreq]
      have htemp : PartInv init
          ((st.balanced_groups.set p1.1
              (Group.mk (p1.2.members.map (fun m => if m = pr.1 then pr.2 else m)))).set
            p2.1
            (Group.mk (p2.2.members.map (fun m => if m = pr.2 then pr.1 else m)))) := by
        refine (h.1.set p1.1 _ (fun hi => ?_)).set p2.1 _ (fun hi => ?_)
        · rw [heq1, hpr1, hpr2]
          exact swapped_GInv hlt1 hkey hm2p
        · rw [heq2, hpr1, hpr2]
          exact swapped_GInv hlt2 hkey.symm hm1p
      by_cases hchk : get_member_ids
          ((st.balanced_groups.set p1.1
              (Group.mk (p1.2.members.map (fun m => if m = pr.1 then pr.2 else m)))).set
            p2.1
            (Group.mk (p2.2.members.map (fun m => if m = pr.2 then pr.1 else m)))) ≠ ids
      · rw [if_pos hchk]; exact hj
      · rw [if_neg hchk]
        have htj : List.Perm (members_of
            ((st.balanced_groups.set p1.1
                (Group.mk (p1.2.members.map (fun m => if m = pr.1 then pr.2 else m)))).set
              p2.1
              (Group.mk (p2.2.members.map (fun m => if m = pr.2 then pr.1 else m)))))
            (members_of init) := by
          refine perm_of_id_check htemp hnd ?_
          rw [not_not] at hchk
          rw [hchk, hids]
        split
        · split
          · exact ⟨htj, htj⟩
          · exact ⟨htj, hj.2⟩
        · exact ⟨hj.1, hj.2⟩

lemma balance_loop_StOK {init : List Group} {ng : List (Nat × Group)}
    {ids : Finset Int} {R : Rand} (hng : NgFrom init ng) :
    ∀ (n it : Nat) (st : BalState), StOK init st →
      StOK init (balance_loop ng ids R n it st)
  | 0, _, _, h => h
  | n + 1, it, st, h =>
    balance_loop_StOK hng n (it + 1) _ (balance_step_StOK hng h)

lemma balance_loop_StJoined {init : List Group} {ng : List (Nat × Group)}
    {ids : Finset Int} {R : Rand} (hng : NgFrom init ng)
    (hids : ids = get_member_ids init) (hnd : (all_member_ids init).Nodup) :
    ∀ (n it : Nat) (st : BalState), StOK init st → StJoined init st →
      StOK init (balance_loop ng ids R n it st) ∧
        StJoined init (balance_loop ng ids R n it st)
  | 0, _, _, h, hj => ⟨h, hj⟩
  | n + 1, it, st, h, hj =>
    balance_loop_StJoined hng hids hnd n (it + 1) _
      (balance_step_StOK hng h) (balance_step_StJoined hng hids hnd h hj)

lemma ng_from_enum (init : List Group) :
    NgFrom init (init.enum.filter (fun p => is_non_graduate_group p.2)) := by
  intro p hp
  have hpe : p ∈ init.enum := (List.mem_filter.mp hp).1
  have h2 := List.mem_enum_iff_getElem?.mp hpe
  refine ⟨(List.getElem?_eq_some.mp h2).1, ?_⟩
  rw [List.getD_eq_getElem?_getD, h2]
  rfl

/-- `balance_gender_in_groups` always returns a partition position-wise
related to its input: same number of groups, and each group keeps its multiset
of (role, prep, graduation) keys and draws its members from the input pool. -/
theorem balance_PartInv (groups : List Group) (max_iterations : Nat)
    (temperature : ℝ) (R : Rand) :
    PartInv groups (balance_gender_in_groups groups max_iterations temperature R) := by
  unfold balance_gender_in_groups
  dsimp only
  rw [List.map_id' groups]
  split
  · exact partInv_refl groups
  · have hfin := @balance_loop_StOK groups _ (get_member_ids groups) R
      (ng_from_enum groups) max_iterations 0
      ⟨groups, calculate_gender_entropy groups, calculate_gender_entropy groups,
        groups, temperature⟩ ⟨partInv_refl groups, partInv_refl groups⟩
    split
    · exact partInv_refl groups
    · exact hfin.2

/-- Whole-partition member conservation of the balancer, under duplicate-free
input ids. -/
theorem balance_members_perm (groups : List Group) (max_iterations : Nat)
    (temperature : ℝ) (R : Rand) (hnd : (all_member_ids groups).Nodup) :
    List.Perm (members_of (balance_gender_in_groups groups max_iterations temperature R))
      (members_of groups) := by
  unfold balance_gender_in_groups
  dsimp only
  rw [List.map_id' groups]
  split
  · exact List.Perm.refl _
  · have hfin := @balance_loop_StJoined groups _ (get_member_ids groups) R
      (ng_from_enum groups) rfl hnd max_iterations 0
      ⟨groups, calculate_gender_entropy groups, calculate_gender_entropy groups,
        groups, temperature⟩ ⟨partInv_refl groups, partInv_refl groups⟩
      ⟨List.Perm.refl _, List.Perm.refl _⟩
    split
    · exact List.Perm.refl _
    · exact hfin.2.2

/-- C2: for every input partition with pairwise-distinct member ids (hence
pairwise-disjoint groups), and every iteration budget, temperature and
randomness, `balance_gender_in_groups` preserves the multiset of member ids:
no member is lost and none is duplicated. -/
theorem balance_preserves_id_multiset (groups : List Group)
    (max_iterations : Nat) (temperature : ℝ) (R : Rand)
    (hnd : (all_member_ids groups).Nodup) :
    List.Perm
      (all_member_ids (balance_gender_in_groups groups max_iterations temperature R))
      (all_member_ids groups) := by
  rw [all_member_ids_eq, all_member_ids_eq]
  exact (balance_members_perm groups max_iterations temperature R hnd).map _

/-- Witness for C2 at a concrete two-group partition. -/
theorem balance_preserves_id_multiset_witness :
    List.Perm
      (all_member_ids (balance_gender_in_groups
        [Group.mk [⟨1, "a", "b", .REGULAR, "M", "x", "student", false, true, false⟩],
         Group.mk [⟨2, "c", "d", .REGULAR, "F", "x", "student", false, true, false⟩]]
        7 0.1 trivialRand))
      (all_member_ids
        [Group.mk [⟨1, "a", "b", .REGULAR, "M", "x", "student", false, true, false⟩],
         Group.mk [⟨2, "c", "d", .REGULAR, "F", "x", "student", false, true, false⟩]]) :=
  balance_preserves_id_multiset _ 7 0.1 trivialRand (by decide)

/-! Monotonicity of the construction phases: every phase only appends members
to groups, so per-position member counts can only grow. -/

/-- Number of members of group `j` satisfying `p`. -/
def countAt (p : GroupMember → Bool) (groups : List Group) (j : Nat) : Nat :=
  ((groups.getD j (Group.mk [])).members).countP p

lemma appendAt_length (groups : List Group) (i : Nat) (m : GroupMember) :
    (appendAt groups i m).length = groups.length := by
  simp [appendAt]

lemma countAt_appendAt_le (p : GroupMember → Bool) (groups : List Group)
    (i j : Nat) (m : GroupMember) :
    countAt p groups j ≤ countAt p (appendAt groups i m) j := by
  unfold countAt appendAt
  by_cases hij : i = j
  · subst hij
    by_cases hi : i < groups.length
    · simp only [List.getD_eq_getElem?_getD]
      rw [List.getElem?_set_eq_of_lt _ hi]
      simp [List.countP_append]
    · rw [List.set_eq_of_length_le (le_of_not_lt hi)]
  · apply le_of_eq
    simp only [List.getD_eq_getElem?_getD]
    rw [List.getElem?_set_ne hij]

lemma countAt_appendAt_self (p : GroupMember → Bool) (groups : List Group)
    (i : Nat) (m : GroupMember) (hi : i < groups.length) (hm : p m = true) :
    countAt p (appendAt groups i m) i = countAt p groups i + 1 := by
  unfold countAt appendAt
  simp only [List.getD_eq_getElem?_getD]
  rw [List.getElem?_set_eq_of_lt _ hi]
  simp [List.countP_append, hm]

/-- `g2` has the same number of groups as `g1` and pointwise at least as many
members of every kind. -/
def ExtendsCounts (g1 g2 : List Group) : Prop :=
  g2.length = g1.length ∧ ∀ (p : GroupMember → Bool) (j : Nat),
    countAt p g1 j ≤ countAt p g2 j

lemma extendsCounts_refl (g : List Group) : ExtendsCounts g g :=
  ⟨rfl, fun _ _ => le_refl _⟩

lemma ExtendsCounts.trans {g1 g2 g3 : List Group}
    (h12 : ExtendsCounts g1 g2) (h23 : ExtendsCounts g2 g3) : ExtendsCounts g1 g3 :=
  ⟨h23.1.trans h12.1, fun p j => (h12.2 p j).trans (h23.2 p j)⟩

lemma extendsCounts_appendAt (groups : List Group) (i : Nat) (m : GroupMember) :
    ExtendsCounts groups (appendAt groups i m) :=
  ⟨appendAt_length groups i m, fun p j => countAt_appendAt_le p groups i j m⟩

lemma append_n_prep_extends : ∀ (groups : List Group) (i n : Nat)
    (rest : List GroupMember), ExtendsCounts groups (append_n_prep groups i n rest).1
  | groups, _, 0, _ => extendsCounts_refl groups
  | groups, _, _ + 1, [] => extendsCounts_refl groups
  | groups, i, n + 1, m :: rest =>
    (extendsCounts_appendAt groups i m).trans
      (append_n_prep_extends (appendAt groups i m) i n rest)

lemma distribute_min_prep_extends : ∀ (groups : List Group) (idxs : List Nat)
    (minp : Nat) (rest : List GroupMember),
    ExtendsCounts groups (distribute_min_prep groups idxs minp rest).1
  | groups, [], _, _ => extendsCounts_refl groups
  | groups, i :: is, minp, rest =>
    (append_n_prep_extends groups i minp rest).trans
      (distribute_min_prep_extends _ is minp _)

lemma distribute_extra_prep_extends : ∀ (groups : List Group) (idxs : List Nat)
    (rest : List GroupMember),
    ExtendsCounts groups (distribute_extra_prep groups idxs rest).1
  | groups, [], _ => extendsCounts_refl groups
  | groups, _ :: _, [] => extendsCounts_refl groups
  | groups, i :: is, m :: rest =>
    (extendsCounts_appendAt groups i m).trans
      (distribute_extra_prep_extends (appendAt groups i m) is rest)

lemma assign_one_each_extends : ∀ (groups : List Group)
    (rem assigned : List GroupMember) (idxs : List Nat),
    ExtendsCounts groups (assign_one_each groups rem assigned idxs).1
  | groups, _, _, [] => extendsCounts_refl groups
  | groups, rem, assigned, i :: is => by
    unfold assign_one_each
    cases hl : rem.getLast? with
    | none => exact assign_one_each_extends groups rem assigned is
    | some m =>
      exact (extendsCounts_appendAt groups i m).trans
        (assign_one_each_extends (appendAt groups i m) rem.dropLast (assigned ++ [m]) is)

lemma distribute_rest_facs_extends : ∀ (groups : List Group) (avail : List Nat)
    (assigned fs : List GroupMember),
    ExtendsCounts groups (distribute_rest_facs groups avail assigned fs).1
  | groups, _, _, [] => extendsCounts_refl groups
  | groups, avail, assigned, f :: fs =>
    (extendsCounts_appendAt groups (avail.headD 0) f).trans
      (distribute_rest_facs_extends _ _ (assigned ++ [f]) fs)

lemma distribute_rest_couns_extends : ∀ (groups : List Group) (avail : List Nat)
    (assigned cs : List GroupMember),
    ExtendsCounts groups (distribute_rest_couns groups avail assigned cs).1
  | groups, _, _, [] => extendsCounts_refl groups
  | groups, avail, assigned, c :: cs =>
    (extendsCounts_appendAt groups ((sort_by_couns groups avail).headD 0) c).trans
      (distribute_rest_couns_extends _ _ (assigned ++ [c]) cs)

lemma distribute_members_min_extends : ∀ (groups : List Group) (cands : List Nat)
    (ms : List GroupMember),
    ExtendsCounts groups (distribute_members_min groups cands ms)
  | groups, _, [] => extendsCounts_refl groups
  | groups, cands, m :: ms =>
    (extendsCounts_appendAt groups (first_min_idx (group_size groups) cands) m).trans
      (distribute_members_min_extends _ cands ms)

lemma distribute_students_min_extends : ∀ (groups : List Group) (cands : List Nat)
    (seen ss : List GroupMember),
    ExtendsCounts groups (distribute_students_min groups cands seen ss)
  | groups, _, _, [] => extendsCounts_refl groups
  | groups, cands, seen, s :: ss => by
    unfold distribute_students_min
    by_cases hs : s ∈ seen
    · rw [if_pos hs]
      exact distribute_students_min_extends groups cands seen ss
    · rw [if_neg hs]
      exact (extendsCounts_appendAt groups (first_min_idx (group_size groups) cands) s).trans
        (distribute_students_min_extends _ cands (seen ++ [s]) ss)

lemma append_n_prep_drop (groups : List Group) (i : Nat) :
    ∀ (n : Nat) (rest : List GroupMember), n ≤ rest.length →
      (append_n_prep groups i n rest).2 = rest.drop n := by
  intro n
  induction n generalizing groups with
  | zero => intro rest _; rfl
  | succ k ih =>
    intro rest hn
    cases rest with
    | nil => simp at hn
    | cons m rest =>
      show (append_n_prep (appendAt groups i m) i k rest).2 = rest.drop k
      exact ih _ rest (by simpa using hn)

lemma append_n_prep_pos (p : GroupMember → Bool) (groups : List Group) (i : Nat)
    (n : Nat) (rest : List GroupMember) (hi : i < groups.length)
    (hall : ∀ m ∈ rest, p m = true) (hn : 1 ≤ n) (hne : rest ≠ []) :
    0 < countAt p (append_n_prep groups i n rest).1 i := by
  cases n with
  | zero => omega
  | succ k =>
    cases rest with
    | nil => exact absurd rfl hne
    | cons m rest =>
      show 0 < countAt p (append_n_prep (appendAt groups i m) i k rest).1 i
      have h1 : 0 < countAt p (appendAt groups i m) i := by
        rw [countAt_appendAt_self p groups i m hi (hall m (by simp))]
        omega
      exact lt_of_lt_of_le h1 ((append_n_prep_extends _ i k rest).2 p i)

lemma distribute_min_prep_pos (p : GroupMember → Bool) :
    ∀ (idxs : List Nat) (groups : List Group) (minp : Nat) (rest : List GroupMember),
      (∀ m ∈ rest, p m = true) → 1 ≤ minp → minp * idxs.length ≤ rest.length →
      (∀ i ∈ idxs, i < groups.length) →
      ∀ i ∈ idxs, 0 < countAt p (distribute_min_prep groups idxs minp rest).1 i := by
  intro idxs
  induction idxs with
  | nil => intro groups minp rest _ _ _ _ i hi; simp at hi
  | cons i0 is ih =>
    intro groups minp rest hall hmin hlen hbound i hi
    have hmul : minp * is.length + minp ≤ rest.length := by
      rw [List.length_cons, Nat.mul_succ] at hlen
      omega
    have hrestne : rest ≠ [] := by
      intro hnil
      rw [hnil] at hmul
      simp at hmul
      omega
    have hminle : minp ≤ rest.length := by omega
    have hdrop := append_n_prep_drop groups i0 minp rest hminle
    show 0 < countAt p (distribute_min_prep (append_n_prep groups i0 minp rest).1 is
      minp (append_n_prep groups i0 minp rest).2).1 i
    rcases List.mem_cons.mp hi with rfl | hmem
    · have hpos0 : 0 < countAt p (append_n_prep groups i minp rest).1 i :=
        append_n_prep_pos p groups i minp rest (hbound i (by simp)) hall hmin hrestne
      exact lt_of_lt_of_le hpos0 ((distribute_min_prep_extends _ is minp _).2 p i)
    · refine ih _ minp _ ?_ hmin ?_ ?_ i hmem
      · rw [hdrop]
        intro m hm
        exact hall m (List.mem_of_mem_drop hm)
      · rw [hdrop, List.length_drop]
        omega
      · intro j hj
        rw [(append_n_prep_extends groups i0 minp rest).1]
        exact hbound j (by simp [hj])

lemma exists_index_of_mem {groups : List Group} {g : Group} (h : g ∈ groups) :
    ∃ j, j < groups.length ∧ groups.getD j (Group.mk []) = g := by
  obtain ⟨i, hi, he⟩ := List.mem_iff_getElem.mp h
  refine ⟨i, hi, ?_⟩
  rw [List.getD_eq_getElem _ _ hi]
  exact he

lemma forall2_mem_right {α β : Type} {Rl : α → β → Prop} :
    ∀ {l1 : List α} {l2 : List β}, List.Forall₂ Rl l1 l2 →
      ∀ y ∈ l2, ∃ x ∈ l1, Rl x y := by
  intro l1 l2 h
  induction h with
  | nil => intro y hy; simp at hy
  | @cons a b ta tb hr _ ih =>
    intro y hy
    rcases List.mem_cons.mp hy with rfl | hy
    · exact ⟨a, by simp, hr⟩
    · obtain ⟨x, hx, hrx⟩ := ih y hy
      exact ⟨x, by simp [hx], hrx⟩

lemma countP_prep_eq_of_GInv {init : List Group} {gi gc : Group}
    (hg : GInv init gi gc) :
    gc.members.countP (fun m => m.prep_attended)
      = gi.members.countP (fun m => m.prep_attended) := by
  have h1 := hg.1.countP_eq (fun kk => kk.2.1)
  rw [List.countP_map, List.countP_map] at h1
  exact h1

lemma extendsCounts_ite (c : Prop) [Decidable c] {g a b : List Group}
    (ha : ExtendsCounts g a) (hb : ExtendsCounts g b) :
    ExtendsCounts g (if c then a else b) := by
  by_cases h : c
  · rwa [if_pos h]
  · rwa [if_neg h]

lemma extendsCounts_ite_fst (c : Prop) [Decidable c] {g : List Group}
    {a b : List Group × List GroupMember}
    (ha : ExtendsCounts g a.1) (hb : ExtendsCounts g b.1) :
    ExtendsCounts g (if c then a else b).1 := by
  by_cases h : c
  · rwa [if_pos h]
  · rwa [if_neg h]

/-- The leader passes and the member distribution only add members to the
groups produced by the prep seeding. -/
lemma divide_leaders_and_rest_extends (present_members : List GroupMember)
    (R : Rand) (num_groups : Nat) (prep_attendees : List GroupMember)
    (groups1 : List Group) :
    ExtendsCounts groups1
      (divide_leaders_and_rest present_members R num_groups prep_attendees groups1) := by
  unfold divide_leaders_and_rest
  lift_lets
  intro assigned1 remaining_facilitators remaining_counselors groups_without_facilitators
    t1 groups2 remaining_facilitators2 assigned2 groups_without_counselors t2 groups3
    remaining_counselors2 assigned3 t3 groups4 assigned4 t4 groups5 assigned5 unassigned
    graduates current_students num_grad_groups sorted_idxs grad_group_indices grad_cands
    g6 non_grad_cands
  refine @ExtendsCounts.trans groups1 groups2 _ (assign_one_each_extends _ _ _ _) ?_
  refine @ExtendsCounts.trans groups2 groups3 _ (assign_one_each_extends _ _ _ _) ?_
  refine @ExtendsCounts.trans groups3 groups4 _
    (extendsCounts_ite_fst _ (extendsCounts_refl _) (distribute_rest_facs_extends _ _ _ _)) ?_
  refine @ExtendsCounts.trans groups4 groups5 _
    (extendsCounts_ite_fst _ (extendsCounts_refl _) (distribute_rest_couns_extends _ _ _ _)) ?_
  refine extendsCounts_ite _ (distribute_students_min_extends _ _ _ _) ?_
  refine @ExtendsCounts.trans groups5 g6 _ (distribute_members_min_extends _ _ _) ?_
  exact extendsCounts_ite _ (distribute_students_min_extends _ _ _ _)
    (distribute_students_min_extends _ _ _ _)

lemma divide_prep_phase_length (num_groups : Nat) (group_indices : List Nat)
    (prep_attendees : List GroupMember) :
    (divide_prep_phase num_groups group_indices prep_attendees).length = num_groups := by
  unfold divide_prep_phase
  dsimp only
  rw [(distribute_extra_prep_extends _ _ _).1, (distribute_min_prep_extends _ _ _ _).1]
  simp

/-- Prep seeding gives every group index at least one prep attendee whenever
there are at least as many prep attendees as groups. -/
lemma divide_prep_phase_pos (num_groups : Nat) (group_indices : List Nat)
    (prep_attendees : List GroupMember)
    (hperm : List.Perm group_indices (List.range num_groups))
    (hall : ∀ m ∈ prep_attendees, m.prep_attended = true)
    (hcov : num_groups ≤ prep_attendees.length) (hk : 0 < num_groups) :
    ∀ i < num_groups, 0 < countAt (fun m => m.prep_attended)
      (divide_prep_phase num_groups group_indices prep_attendees) i := by
  intro i hi
  unfold divide_prep_phase
  dsimp only
  have hmem : i ∈ group_indices := hperm.mem_iff.mpr (List.mem_range.mpr hi)
  have hpos : 0 < countAt (fun m => m.prep_attended)
      (distribute_min_prep ((List.range num_groups).map fun _ => Group.mk [])
        group_indices (prep_attendees.length / num_groups) prep_attendees).1 i := by
    refine distribute_min_prep_pos _ group_indices _ _ prep_attendees hall
      ((Nat.one_le_div_iff hk).mpr hcov) ?_ ?_ i hmem
    · rw [hperm.length_eq, List.length_range]
      exact Nat.div_mul_le_self _ _
    · intro j hj
      simp only [List.length_map, List.length_range]
      exact List.mem_range.mp (hperm.mem_iff.mp hj)
  exact lt_of_lt_of_le hpos ((distribute_extra_prep_extends _ _ _).2 _ i)

/-- Pre-balance prep coverage for the construction phases. -/
lemma divide_construct_prep_pos (members : List GroupMember) (R : Rand)
    (hR : R.Valid)
    (hcov : num_groups_of members ≤
      (members.filter (fun m => m.is_present)).countP (fun m => m.prep_attended)) :
    ∀ g ∈ divide_construct members R, ∃ m ∈ g.members, m.prep_attended = true := by
  obtain ⟨hP, hI, _, _, _⟩ := hR
  intro g hg
  unfold divide_construct at hg
  dsimp only at hg
  have hpermP := hP ((members.filter (fun m => m.is_present)).filter
    (fun m => m.prep_attended))
  have hpermI := hI (List.range (num_groups_of members))
  have hallP : ∀ m ∈ R.shufflePrep ((members.filter (fun m => m.is_present)).filter
      (fun m => m.prep_attended)), m.prep_attended = true := by
    intro m hm
    exact (List.mem_filter.mp (hpermP.mem_iff.mp hm)).2
  have hlenP : (R.shufflePrep ((members.filter (fun m => m.is_present)).filter
      (fun m => m.prep_attended))).length
      = (members.filter (fun m => m.is_present)).countP (fun m => m.prep_attended) := by
    rw [hpermP.length_eq]
    exact (List.countP_eq_length_filter _ _).symm
  have hk0 : 0 < num_groups_of members :=
    Nat.lt_of_lt_of_le Nat.zero_lt_one (le_max_left _ _)
  have hposAll := divide_prep_phase_pos (num_groups_of members) _ _ hpermI hallP
    (by rw [hlenP]; exact hcov) hk0
  have hext := divide_leaders_and_rest_extends (members.filter (fun m => m.is_present))
    R (num_groups_of members)
    (R.shufflePrep ((members.filter (fun m => m.is_present)).filter
      (fun m => m.prep_attended)))
    (divide_prep_phase (num_groups_of members)
      (R.shuffleIdx (List.range (num_groups_of members)))
      (R.shufflePrep ((members.filter (fun m => m.is_present)).filter
        (fun m => m.prep_attended))))
  obtain ⟨j, hj, hge⟩ := exists_index_of_mem hg
  have hjk : j < num_groups_of members := by
    rw [hext.1, divide_prep_phase_length] at hj
    exact hj
  have hpos := lt_of_lt_of_le (hposAll j hjk) (hext.2 (fun m => m.prep_attended) j)
  rw [countAt, hge] at hpos
  exact List.countP_pos_iff.mp hpos

/-- C7: whenever at least as many present members attended prep as there are
groups formed, every group returned by `divide_into_groups` contains at least
one prep attendee, for every group-count hint, iteration budget and valid
randomness. -/
theorem divide_prep_coverage (members : List GroupMember)
    (num_groups0 max_iterations : Nat) (R : Rand) (hR : R.Valid)
    (hcov : num_groups_of members ≤
      (members.filter (fun m => m.is_present)).countP (fun m => m.prep_attended)) :
    ∀ g ∈ divide_into_groups members num_groups0 max_iterations R,
      ∃ m ∈ g.members, m.prep_attended = true := by
  intro g hg
  unfold divide_into_groups at hg
  by_cases hmi : 0 < max_iterations
  · rw [if_pos hmi] at hg
    have hPI := balance_PartInv (divide_construct members R) max_iterations 0.1 R
    obtain ⟨gi, hgi, hGi⟩ := forall2_mem_right hPI g hg
    obtain ⟨m, hm, hpm⟩ := divide_construct_prep_pos members R hR hcov gi hgi
    have hposi : 0 < gi.members.countP (fun m => m.prep_attended) :=
      List.countP_pos_iff.mpr ⟨m, hm, hpm⟩
    have hcount := countP_prep_eq_of_GInv hGi
    rw [← hcount] at hposi
    exact List.countP_pos_iff.mp hposi
  · rw [if_neg hmi] at hg
    exact divide_construct_prep_pos members R hR hcov g hg

/-- Member used by the C7 witness: present, prep attended. -/
def c7_member : GroupMember :=
  ⟨1, "a", "b", .REGULAR, "M", "x", "student", false, true, true⟩

/-- Witness for C7 at a concrete input: one present prep attendee, one group. -/
theorem divide_prep_coverage_witness :
    ∃ m ∈ ((divide_into_groups [c7_member] 2 0 trivialRand).getD 0
      (Group.mk [])).members, m.prep_attended = true :=
  divide_prep_coverage [c7_member] 2 0 trivialRand trivialRand_valid (by decide)
    _ (by decide)

lemma assign_one_each_pos (p : GroupMember → Bool) :
    ∀ (idxs : List Nat) (groups : List Group) (rem assigned : List GroupMember),
      (∀ m ∈ rem, p m = true) → idxs.length ≤ rem.length →
      (∀ i ∈ idxs, i < groups.length) →
      ∀ i ∈ idxs, 0 < countAt p (assign_one_each groups rem assigned idxs).1 i := by
  intro idxs
  induction idxs with
  | nil => intro groups rem assigned _ _ _ i hi; simp at hi
  | cons i0 is ih =>
    intro groups rem assigned hall hlen hbound i hi
    have hremne : rem ≠ [] := by
      intro hnil
      rw [hnil] at hlen
      simp at hlen
    have hsome : rem.getLast? = some (rem.getLast hremne) :=
      List.getLast?_eq_getLast_of_ne_nil hremne
    have hred : assign_one_each groups rem assigned (i0 :: is)
        = assign_one_each (appendAt groups i0 (rem.getLast hremne)) rem.dropLast
          (assigned ++ [rem.getLast hremne]) is := by
      rw [assign_one_each, hsome]
    rw [hred]
    have hlast_mem : rem.getLast hremne ∈ rem := List.getLast_mem hremne
    have hlen' : is.length ≤ rem.dropLast.length := by
      rw [List.length_dropLast]
      rw [List.length_cons] at hlen
      omega
    have hbound' : ∀ j ∈ is, j < (appendAt groups i0 (rem.getLast hremne)).length := by
      intro j hj
      rw [appendAt_length]
      exact hbound j (by simp [hj])
    rcases List.mem_cons.mp hi with rfl | hmem
    · have h1 : 0 < countAt p (appendAt groups i (rem.getLast hremne)) i := by
        rw [countAt_appendAt_self p groups i _ (hbound i (by simp)) (hall _ hlast_mem)]
        omega
      exact lt_of_lt_of_le h1 ((assign_one_each_extends _ _ _ is).2 p i)
    · refine ih _ rem.dropLast _ ?_ hlen' hbound' i hmem
      intro m hm
      exact hall m ((List.dropLast_sublist rem).subset hm)

lemma distribute_min_prep_zero :
    ∀ (idxs : List Nat) (groups : List Group) (rest : List GroupMember),
      distribute_min_prep groups idxs 0 rest = (groups, rest)
  | [], _, _ => rfl
  | i :: is, groups, rest => distribute_min_prep_zero is groups rest

lemma divide_prep_phase_nil (num_groups : Nat) (group_indices : List Nat) :
    divide_prep_phase num_groups group_indices []
      = (List.range num_groups).map (fun _ => Group.mk []) := by
  unfold divide_prep_phase
  dsimp only
  rw [List.length_nil, Nat.zero_div, Nat.zero_mod, distribute_min_prep_zero,
    List.take_zero]
  rfl

/-- After the first leader pass on all-empty groups with enough facilitators,
every position keeps at least one facilitator to the end of the construction. -/
lemma divide_leaders_and_rest_fac_pos (present_members : List GroupMember)
    (R : Rand) (num_groups : Nat) (prep_attendees : List GroupMember)
    (groups1 : List Group) (hg1len : groups1.length = num_groups)
    (hg1empty : ∀ g ∈ groups1, g.members = [])
    (hfac : ∀ m ∈ R.shuffleFacs (present_members.filter
      (fun m => m.role == MemberRole.FACILITATOR && !(prep_attendees.contains m))),
      (m.role == MemberRole.FACILITATOR) = true)
    (hflen : num_groups ≤ (R.shuffleFacs (present_members.filter
      (fun m => m.role == MemberRole.FACILITATOR && !(prep_attendees.contains m)))).length) :
    ∀ i < num_groups, 0 < countAt (fun m => m.role == MemberRole.FACILITATOR)
      (divide_leaders_and_rest present_members R num_groups prep_attendees groups1) i := by
  intro i hi
  unfold divide_leaders_and_rest
  lift_lets
  intro assigned1 remaining_facilitators remaining_counselors groups_without_facilitators
    t1 groups2 remaining_facilitators2 assigned2 groups_without_counselors t2 groups3
    remaining_counselors2 assigned3 t3 groups4 assigned4 t4 groups5 assigned5 unassigned
    graduates current_students num_grad_groups sorted_idxs grad_group_indices grad_cands
    g6 non_grad_cands
  have hgwf : groups_without_facilitators = List.range num_groups := by
    show (groups1.enum.filter
        (fun p => !(p.2.members.any (fun m => m.role == MemberRole.FACILITATOR)))).map
          (fun p => p.1) = List.range num_groups
    have hfe : groups1.enum.filter
        (fun p => !(p.2.members.any (fun m => m.role == MemberRole.FACILITATOR)))
        = groups1.enum := by
      apply List.filter_eq_self.mpr
      intro a ha
      have ha2 : a.2 ∈ groups1 := by
        have := List.mem_enum_iff_getElem?.mp ha
        have h3 := (List.getElem?_eq_some.mp this).1
        exact List.getElem?_mem this
      rw [hg1empty a.2 ha2]
      rfl
    rw [hfe]
    have := List.enum_map_fst groups1
    rw [hg1len] at this
    exact this
  have hpos2 : 0 < countAt (fun m => m.role == MemberRole.FACILITATOR) groups2 i := by
    show 0 < countAt (fun m => m.role == MemberRole.FACILITATOR)
      (assign_one_each groups1 remaining_facilitators assigned1
        groups_without_facilitators).1 i
    refine assign_one_each_pos (fun m => m.role == MemberRole.FACILITATOR)
      groups_without_facilitators groups1
      remaining_facilitators assigned1 hfac ?_ ?_ i ?_
    · rw [hgwf, List.length_range]
      exact hflen
    · intro j hj
      rw [hgwf, List.mem_range] at hj
      rw [hg1len]
      exact hj
    · rw [hgwf, List.mem_range]
      exact hi
  have hext : ExtendsCounts groups2
      (if graduates = [] then
        distribute_students_min groups5 (List.range num_groups) [] current_students
      else
        if non_grad_cands ≠ [] then
          distribute_students_min g6 non_grad_cands [] current_students
        else
          distribute_students_min g6 (List.range num_groups) [] current_students) := by
    refine @ExtendsCounts.trans groups2 groups3 _ (assign_one_each_extends _ _ _ _) ?_
    refine @ExtendsCounts.trans groups3 groups4 _
      (extendsCounts_ite_fst _ (extendsCounts_refl _) (distribute_rest_facs_extends _ _ _ _)) ?_
    refine @ExtendsCounts.trans groups4 groups5 _
      (extendsCounts_ite_fst _ (extendsCounts_refl _) (distribute_rest_couns_extends _ _ _ _)) ?_
    refine extendsCounts_ite _ (distribute_students_min_extends _ _ _ _) ?_
    refine @ExtendsCounts.trans groups5 g6 _ (distribute_members_min_extends _ _ _) ?_
    exact extendsCounts_ite _ (distribute_students_min_extends _ _ _ _)
      (distribute_students_min_extends _ _ _ _)
  exact lt_of_lt_of_le hpos2 (hext.2 _ i)

lemma countP_fac_eq_of_GInv {init : List Group} {gi gc : Group}
    (hg : GInv init gi gc) :
    gc.members.countP (fun m => m.role == MemberRole.FACILITATOR)
      = gi.members.countP (fun m => m.role == MemberRole.FACILITATOR) := by
  have h1 := hg.1.countP_eq (fun kk => kk.1 == MemberRole.FACILITATOR)
  rw [List.countP_map, List.countP_map] at h1
  exact h1

/-- Pre-balance facilitator coverage: with no present prep attendees and at
least one facilitator per group available, the first leader pass places one
facilitator into every group. -/
lemma divide_construct_fac (members : List GroupMember) (R : Rand) (hR : R.Valid)
    (hnoprep : (members.filter (fun m => m.is_present)).filter
      (fun m => m.prep_attended) = [])
    (hcovF : num_groups_of members ≤ (members.filter (fun m => m.is_present)).countP
      (fun m => m.role == MemberRole.FACILITATOR)) :
    ∀ g ∈ divide_construct members R,
      ∃ m ∈ g.members, m.role = MemberRole.FACILITATOR := by
  obtain ⟨hP, hI, hF, _, _⟩ := hR
  intro g hg
  unfold divide_construct at hg
  dsimp only at hg
  have hprep : R.shufflePrep ((members.filter (fun m => m.is_present)).filter
      (fun m => m.prep_attended)) = [] := by
    rw [hnoprep]
    exact (hP []).eq_nil
  rw [hprep, divide_prep_phase_nil] at hg
  have hfperm := hF ((members.filter (fun m => m.is_present)).filter
    (fun m => m.role == MemberRole.FACILITATOR && !(([] : List GroupMember).contains m)))
  have hfall : ∀ m ∈ R.shuffleFacs ((members.filter (fun m => m.is_present)).filter
      (fun m => m.role == MemberRole.FACILITATOR && !(([] : List GroupMember).contains m))),
      (m.role == MemberRole.FACILITATOR) = true := by
    intro m hm
    have h2 := (List.mem_filter.mp (hfperm.mem_iff.mp hm)).2
    simp only [Bool.and_eq_true] at h2
    exact h2.1
  have hflen : num_groups_of members ≤
      (R.shuffleFacs ((members.filter (fun m => m.is_present)).filter
        (fun m => m.role == MemberRole.FACILITATOR
          && !(([] : List GroupMember).contains m)))).length := by
    rw [hfperm.length_eq, ← List.countP_eq_length_filter]
    have hpred : ∀ m ∈ members.filter (fun m => m.is_present),
        ((m.role == MemberRole.FACILITATOR
          && !(([] : List GroupMember).contains m)) = true
          ↔ (m.role == MemberRole.FACILITATOR) = true) := by
      intro m _
      simp
    rw [List.countP_congr hpred]
    exact hcovF
  have hposAll := divide_leaders_and_rest_fac_pos
    (members.filter (fun m => m.is_present)) R (num_groups_of members) []
    ((List.range (num_groups_of members)).map (fun _ => Group.mk []))
    (by simp)
    (by
      intro g0 hgm
      rw [List.mem_map] at hgm
      obtain ⟨a, _, ha⟩ := hgm
      rw [← ha])
    hfall hflen
  have hext := divide_leaders_and_rest_extends
    (members.filter (fun m => m.is_present)) R (num_groups_of members) []
    ((List.range (num_groups_of members)).map (fun _ => Group.mk []))
  obtain ⟨j, hj, hge⟩ := exists_index_of_mem hg
  have hjk : j < num_groups_of members := by
    rw [hext.1] at hj
    simpa using hj
  have hpos := hposAll j hjk
  rw [countAt, hge] at hpos
  obtain ⟨m, hm, hfm⟩ := List.countP_pos_iff.mp hpos
  exact ⟨m, hm, by simpa using hfm⟩

/-- C4 (amended): if no present member attended prep and the number of present
facilitators is at least the number of groups formed, then every group of the
returned partition (in particular every non-graduate-designated one) contains
a leader, for every group-count hint, iteration budget and valid randomness. -/
theorem divide_leader_coverage_amended (members : List GroupMember)
    (num_groups0 max_iterations : Nat) (R : Rand) (hR : R.Valid)
    (hnoprep : (members.filter (fun m => m.is_present)).filter
      (fun m => m.prep_attended) = [])
    (hcovF : num_groups_of members ≤ (members.filter (fun m => m.is_present)).countP
      (fun m => m.role == MemberRole.FACILITATOR)) :
    ∀ g ∈ divide_into_groups members num_groups0 max_iterations R,
      ∃ m ∈ g.members,
        m.role = MemberRole.FACILITATOR ∨ m.role = MemberRole.COUNSELOR := by
  intro g hg
  unfold divide_into_groups at hg
  by_cases hmi : 0 < max_iterations
  · rw [if_pos hmi] at hg
    obtain ⟨gi, hgi, hGi⟩ :=
      forall2_mem_right (balance_PartInv (divide_construct members R)
        max_iterations 0.1 R) g hg
    obtain ⟨m, hm, hfm⟩ := divide_construct_fac members R hR hnoprep hcovF gi hgi
    have hposi : 0 < gi.members.countP (fun m => m.role == MemberRole.FACILITATOR) :=
      List.countP_pos_iff.mpr ⟨m, hm, by simp [hfm]⟩
    rw [← countP_fac_eq_of_GInv hGi] at hposi
    obtain ⟨m2, hm2, hf2⟩ := List.countP_pos_iff.mp hposi
    exact ⟨m2, hm2, Or.inl (by simpa using hf2)⟩
  · rw [if_neg hmi] at hg
    obtain ⟨m, hm, hf⟩ := divide_construct_fac members R hR hnoprep hcovF g hg
    exact ⟨m, hm, Or.inl hf⟩

/-- Input for the C4 amended witness: one facilitator and three regular
students, all present, none prep-attended. -/
def c4w_members : List GroupMember :=
  [⟨1, "a", "b", .FACILITATOR, "M", "x", "student", false, true, false⟩,
   ⟨2, "a", "b", .REGULAR, "F", "x", "student", false, true, false⟩,
   ⟨3, "a", "b", .REGULAR, "M", "x", "student", false, true, false⟩,
   ⟨4, "a", "b", .REGULAR, "F", "x", "student", false, true, false⟩]

/-- Witness for the amended C4. -/
theorem divide_leader_coverage_amended_witness :
    ∃ m ∈ ((divide_into_groups c4w_members 2 0 trivialRand).getD 0
      (Group.mk [])).members,
      m.role = MemberRole.FACILITATOR ∨ m.role = MemberRole.COUNSELOR :=
  divide_leader_coverage_amended c4w_members 2 0 trivialRand trivialRand_valid
    (by decide) (by decide) _ (by decide)

lemma group_size_appendAt_self (groups : List Group) (i : Nat) (m : GroupMember)
    (hi : i < groups.length) :
    group_size (appendAt groups i m) i = group_size groups i + 1 := by
  unfold group_size appendAt
  simp only [List.getD_eq_getElem?_getD]
  rw [List.getElem?_set_eq_of_lt _ hi]
  simp

lemma group_size_appendAt_ne (groups : List Group) (i j : Nat) (m : GroupMember)
    (hij : i ≠ j) :
    group_size (appendAt groups i m) j = group_size groups j := by
  unfold group_size appendAt
  simp only [List.getD_eq_getElem?_getD]
  rw [List.getElem?_set_ne hij]

lemma members_of_set : ∀ (groups : List Group) (i : Nat) (g' : Group),
    i < groups.length →
    (members_of (groups.set i g')).length + ((groups.getD i (Group.mk [])).members).length
      = (members_of groups).length + g'.members.length := by
  intro groups
  induction groups with
  | nil => intro i g' hi; simp at hi
  | cons a t ih =>
    intro i g' hi
    cases i with
    | zero =>
      simp only [List.set, members_of, List.flatMap_cons, List.length_append,
        List.getD_cons_zero]
      omega
    | succ n =>
      have hn : n < t.length := by simpa using hi
      have := ih n g' hn
      simp only [List.set, members_of, List.flatMap_cons, List.length_append,
        List.getD_cons_succ] at this ⊢
      omega

lemma members_of_appendAt (groups : List Group) (i : Nat) (m : GroupMember)
    (hi : i < groups.length) :
    (members_of (appendAt groups i m)).length = (members_of groups).length + 1 := by
  have := members_of_set groups i
    (Group.mk ((groups.getD i (Group.mk [])).members ++ [m])) hi
  unfold appendAt
  simp only [List.length_append, List.length_cons, List.length_nil] at this ⊢
  omega

lemma members_of_length_eq_sum (groups : List Group) :
    (members_of groups).length = (groups.map (fun g => g.members.length)).sum := by
  induction groups with
  | nil => rfl
  | cons a t ih =>
    simp only [members_of, List.flatMap_cons, List.length_append, List.map_cons,
      List.sum_cons] at ih ⊢
    omega

lemma first_min_idx_spec (key : Nat → Nat) :
    ∀ (l : List Nat), l ≠ [] →
      first_min_idx key l ∈ l ∧ ∀ j ∈ l, key (first_min_idx key l) ≤ key j := by
  have hfold : ∀ (is : List Nat) (acc : Nat),
      (is.foldl (fun acc j => if key j < key acc then j else acc) acc = acc ∨
        is.foldl (fun acc j => if key j < key acc then j else acc) acc ∈ is) ∧
      key (is.foldl (fun acc j => if key j < key acc then j else acc) acc) ≤ key acc ∧
      ∀ j ∈ is, key (is.foldl (fun acc j => if key j < key acc then j else acc) acc)
        ≤ key j := by
    intro is
    induction is with
    | nil => intro acc; exact ⟨Or.inl rfl, le_refl _, fun j hj => by simp at hj⟩
    | cons a t ih =>
      intro acc
      simp only [List.foldl_cons]
      by_cases h : key a < key acc
      · rw [if_pos h]
        obtain ⟨hm, hle, hall⟩ := ih a
        refine ⟨Or.inr ?_, le_trans hle (le_of_lt h), fun j hj => ?_⟩
        · rcases hm with hm | hm
          · simp [hm]
          · simp [hm]
        · rcases List.mem_cons.mp hj with rfl | hj
          · exact hle
          · exact hall j hj
      · rw [if_neg h]
        obtain ⟨hm, hle, hall⟩ := ih acc
        refine ⟨?_, hle, fun j hj => ?_⟩
        · rcases hm with hm | hm
          · exact Or.inl hm
          · exact Or.inr (by simp [hm])
        · rcases List.mem_cons.mp hj with rfl | hj
          · exact le_trans hle (le_of_not_lt h)
          · exact hall j hj
  intro l hne
  cases l with
  | nil => exact absurd rfl hne
  | cons a t =>
    obtain ⟨hm, hle, hall⟩ := hfold t a
    refine ⟨?_, fun j hj => ?_⟩
    · show t.foldl _ a ∈ a :: t
      rcases hm with hm | hm
      · simp [hm]
      · simp [hm]
    · rcases List.mem_cons.mp hj with rfl | hj
      · exact hle
      · exact hall j hj

lemma assign_one_each_nil : ∀ (idxs : List Nat) (groups : List Group)
    (assigned : List GroupMember),
    assign_one_each groups [] assigned idxs = (groups, [], assigned)
  | [], _, _ => rfl
  | i :: is, groups, assigned => assign_one_each_nil is groups assigned

/-- With no prep attendees, no facilitators and no counselors among the
present members, and no graduated present member, the whole
`divide_leaders_and_rest` reduces to the even distribution of the present
members. -/
lemma divide_leaders_and_rest_students_only (present_members : List GroupMember)
    (R : Rand) (num_groups : Nat) (groups1 : List Group)
    (hfacs : R.shuffleFacs (present_members.filter
      (fun m => m.role == MemberRole.FACILITATOR
        && !(([] : List GroupMember).contains m))) = [])
    (hcouns : R.shuffleCouns (present_members.filter
      (fun m => m.role == MemberRole.COUNSELOR
        && !(([] : List GroupMember).contains m))) = [])
    (hnograd : ∀ m ∈ present_members, (m.education_status == "graduated") = false) :
    divide_leaders_and_rest present_members R num_groups [] groups1
      = distribute_students_min groups1 (List.range num_groups) [] present_members := by
  unfold divide_leaders_and_rest
  have hunas : present_members.filter
      (fun m => !(([] : List GroupMember).contains m)) = present_members :=
    List.filter_eq_self.mpr (fun a _ => by simp)
  have hgrad : present_members.filter
      (fun m => m.education_status == "graduated") = [] :=
    List.filter_eq_nil_iff.mpr (fun a ha => by simp [hnograd a ha])
  have hstud : present_members.filter
      (fun m => !(m.education_status == "graduated")) = present_members :=
    List.filter_eq_self.mpr (fun a ha => by simp [hnograd a ha])
  simp only [hfacs, hcouns, assign_one_each_nil, reduceIte, hunas, hgrad, hstud]

lemma members_of_empties : ∀ (l : List Nat),
    members_of (l.map (fun _ => Group.mk [])) = []
  | [] => rfl
  | _ :: is => members_of_empties is

/-- Distributing members one at a time to the currently smallest group keeps
group sizes within one of each other and assigns every (duplicate-free, fresh)
member. -/
lemma distribute_students_min_balanced (k : Nat) (hk : 0 < k) :
    ∀ (ss : List GroupMember) (groups : List Group) (seen : List GroupMember),
      ss.Nodup → (∀ s ∈ ss, s ∉ seen) → groups.length = k →
      (∀ i j, i < k → j < k → group_size groups i ≤ group_size groups j + 1) →
      (distribute_students_min groups (List.range k) seen ss).length = k ∧
      (∀ i j, i < k → j < k →
        group_size (distribute_students_min groups (List.range k) seen ss) i
          ≤ group_size (distribute_students_min groups (List.range k) seen ss) j + 1) ∧
      (members_of (distribute_students_min groups (List.range k) seen ss)).length
        = (members_of groups).length + ss.length := by
  intro ss
  induction ss with
  | nil => intro groups seen _ _ hlen hbal; exact ⟨hlen, hbal, rfl⟩
  | cons s ss ih =>
    intro groups seen hnd hfresh hlen hbal
    have hs : s ∉ seen := hfresh s (by simp)
    have hred : distribute_students_min groups (List.range k) seen (s :: ss)
        = distribute_students_min
            (appendAt groups (first_min_idx (group_size groups) (List.range k)) s)
            (List.range k) (seen ++ [s]) ss := by
      rw [distribute_students_min, if_neg hs]
    rw [hred]
    have hrne : (List.range k) ≠ [] := by
      intro h
      have h2 := List.length_range k
      rw [h] at h2
      simp at h2
      omega
    obtain ⟨hmem0, hmin0⟩ := first_min_idx_spec (group_size groups) (List.range k) hrne
    have hi0 : first_min_idx (group_size groups) (List.range k) < k :=
      List.mem_range.mp hmem0
    have hi0' : first_min_idx (group_size groups) (List.range k) < groups.length := by
      rw [hlen]
      exact hi0
    have hbal' : ∀ i j, i < k → j < k →
        group_size (appendAt groups (first_min_idx (group_size groups) (List.range k)) s) i
          ≤ group_size
            (appendAt groups (first_min_idx (group_size groups) (List.range k)) s) j + 1 := by
      intro i j hik hjk
      by_cases hii : i = first_min_idx (group_size groups) (List.range k)
      · rw [hii, group_size_appendAt_self groups _ s hi0']
        by_cases hjj : j = first_min_idx (group_size groups) (List.range k)
        · rw [hjj, group_size_appendAt_self groups _ s hi0']
          omega
        · rw [group_size_appendAt_ne groups _ j s (fun hh => hjj hh.symm)]
          have := hmin0 j (List.mem_range.mpr hjk)
          omega
      · rw [group_size_appendAt_ne groups _ i s (fun hh => hii hh.symm)]
        by_cases hjj : j = first_min_idx (group_size groups) (List.range k)
        · rw [hjj, group_size_appendAt_self groups _ s hi0']
          have := hbal i (first_min_idx (group_size groups) (List.range k)) hik hi0
          omega
        · rw [group_size_appendAt_ne groups _ j s (fun hh => hjj hh.symm)]
          exact hbal i j hik hjk
    have hfresh' : ∀ t ∈ ss, t ∉ seen ++ [s] := by
      intro t ht hmem
      rcases List.mem_append.mp hmem with hm | hm
      · exact hfresh t (by simp [ht]) hm
      · have hts : t = s := by simpa using hm
        rw [hts] at ht
        exact (List.nodup_cons.mp hnd).1 ht
    obtain ⟨hl, hb, hc⟩ := ih
      (appendAt groups (first_min_idx (group_size groups) (List.range k)) s)
      (seen ++ [s]) (List.nodup_cons.mp hnd).2 hfresh'
      (by rw [appendAt_length, hlen]) hbal'
    refine ⟨hl, hb, ?_⟩
    rw [hc, members_of_appendAt groups _ s hi0']
    simp only [List.length_cons]
    omega

/-- In a partition with sizes within one of each other, `n` members in total
and the group count computed by `divide_into_groups`, every group has at least
4 members once at least 4 members are present. -/
lemma balanced_min_size {k n : Nat} (groups : List Group)
    (hlen : groups.length = k) (hk : k = max 1 ((n + 7 - 1) / 7))
    (hbal : ∀ i j, i < k → j < k → group_size groups i ≤ group_size groups j + 1)
    (htot : (members_of groups).length = n) (hn : 4 ≤ n) :
    ∀ j < k, 4 ≤ group_size groups j := by
  intro j hj
  by_contra hlt
  push_neg at hlt
  have hsum : (groups.map (fun g => g.members.length)).sum = n := by
    rw [← htot]
    exact (members_of_length_eq_sum groups).symm
  have hjl : j < groups.length := by rw [hlen]; exact hj
  have hmem : group_size groups j ∈ groups.map (fun g => g.members.length) := by
    rw [List.mem_map]
    refine ⟨groups[j], List.getElem_mem hjl, ?_⟩
    rw [group_size, List.getD_eq_getElem _ _ hjl]
  have hbound : ∀ x ∈ groups.map (fun g => g.members.length),
      x ≤ group_size groups j + 1 := by
    intro x hx
    rw [List.mem_map] at hx
    obtain ⟨g, hg, hgx⟩ := hx
    obtain ⟨i, hi, hgi⟩ := exists_index_of_mem hg
    have : x = group_size groups i := by
      rw [group_size, hgi, hgx]
    rw [this]
    exact hbal i j (by rw [← hlen]; exact hi) hj
  have hperm := List.perm_cons_erase hmem
  have hsum2 : (groups.map (fun g => g.members.length)).sum
      = group_size groups j
        + ((groups.map (fun g => g.members.length)).erase (group_size groups j)).sum := by
    rw [hperm.sum_eq]
    simp
  have herase_len : ((groups.map (fun g => g.members.length)).erase
      (group_size groups j)).length = k - 1 := by
    rw [List.length_erase_of_mem hmem, List.length_map, hlen]
  have herase_bound : ((groups.map (fun g => g.members.length)).erase
      (group_size groups j)).sum ≤ (k - 1) * (group_size groups j + 1) := by
    have h1 := List.sum_le_card_nsmul
      ((groups.map (fun g => g.members.length)).erase (group_size groups j))
      (group_size groups j + 1)
      (fun x hx => hbound x (List.mem_of_mem_erase hx))
    rw [herase_len] at h1
    simpa [smul_eq_mul] using h1
  have hmul : (k - 1) * (group_size groups j + 1) ≤ (k - 1) * 4 :=
    Nat.mul_le_mul_left _ (by omega)
  have hfin : n + 1 ≤ 4 * k := by
    have hk1 : 1 ≤ k := by omega
    omega
  omega

/-- Pre-balance even sizes: with at least four present members, distinct ids,
and no prep attendee, leader or graduate among the present members, every
constructed group has at least 4 members. -/
lemma divide_construct_sizes (members : List GroupMember) (R : Rand) (hR : R.Valid)
    (hnodup : (members.map (fun m => m.id)).Nodup)
    (hnoprep : (members.filter (fun m => m.is_present)).filter
      (fun m => m.prep_attended) = [])
    (hnolead : ∀ m ∈ members.filter (fun m => m.is_present),
      m.role = MemberRole.REGULAR)
    (hnograd : ∀ m ∈ members.filter (fun m => m.is_present),
      (m.education_status == "graduated") = false)
    (hn : 4 ≤ (members.filter (fun m => m.is_present)).length) :
    ∀ g ∈ divide_construct members R, 4 ≤ g.members.length := by
  obtain ⟨hP, hI, hF, hC, _⟩ := hR
  intro g hg
  unfold divide_construct at hg
  dsimp only at hg
  have hprep : R.shufflePrep ((members.filter (fun m => m.is_present)).filter
      (fun m => m.prep_attended)) = [] := by
    rw [hnoprep]
    exact (hP []).eq_nil
  rw [hprep, divide_prep_phase_nil] at hg
  have hfacs : R.shuffleFacs ((members.filter (fun m => m.is_present)).filter
      (fun m => m.role == MemberRole.FACILITATOR
        && !(([] : List GroupMember).contains m))) = [] := by
    have hempty : (members.filter (fun m => m.is_present)).filter
        (fun m => m.role == MemberRole.FACILITATOR
          && !(([] : List GroupMember).contains m)) = [] :=
      List.filter_eq_nil_iff.mpr (fun a ha => by simp [hnolead a ha])
    rw [hempty]
    exact (hF []).eq_nil
  have hcouns : R.shuffleCouns ((members.filter (fun m => m.is_present)).filter
      (fun m => m.role == MemberRole.COUNSELOR
        && !(([] : List GroupMember).contains m))) = [] := by
    have hempty : (members.filter (fun m => m.is_present)).filter
        (fun m => m.role == MemberRole.COUNSELOR
          && !(([] : List GroupMember).contains m)) = [] :=
      List.filter_eq_nil_iff.mpr (fun a ha => by simp [hnolead a ha])
    rw [hempty]
    exact (hC []).eq_nil
  rw [divide_leaders_and_rest_students_only _ R _ _ hfacs hcouns hnograd] at hg
  have hk0 : 0 < num_groups_of members :=
    Nat.lt_of_lt_of_le Nat.zero_lt_one (le_max_left _ _)
  have hpres_nodup : (members.filter (fun m => m.is_present)).Nodup :=
    (List.Nodup.of_map _ hnodup).filter _
  obtain ⟨hlenf, hbalf, htotf⟩ := distribute_students_min_balanced
    (num_groups_of members) hk0 (members.filter (fun m => m.is_present))
    ((List.range (num_groups_of members)).map (fun _ => Group.mk []))
    [] hpres_nodup (by simp) (by simp)
    (by
      intro i j _ _
      have hz : ∀ x, group_size
          ((List.range (num_groups_of members)).map (fun _ => Group.mk [])) x = 0 := by
        intro x
        unfold group_size
        by_cases hx : x < num_groups_of members
        · rw [List.getD_eq_getElem _ _ (by simpa using hx)]
          simp
        · rw [List.getD_eq_default _ _ (by simpa using le_of_not_lt hx)]
          rfl
      rw [hz i, hz j]
      omega)
  rw [members_of_empties] at htotf
  simp only [List.length_nil, Nat.zero_add] at htotf
  have hsizes := balanced_min_size
    (distribute_students_min
      ((List.range (num_groups_of members)).map (fun _ => Group.mk []))
      (List.range (num_groups_of members)) []
      (members.filter (fun m => m.is_present)))
    hlenf rfl hbalf htotf hn
  obtain ⟨j, hjl, hje⟩ := exists_index_of_mem hg
  have hjk : j < num_groups_of members := by
    rw [hlenf] at hjl
    exact hjl
  have hj4 := hsizes j hjk
  rw [group_size, hje] at hj4
  exact hj4

/-- C3 (amended): every group has at least 4 members, provided at least 4
members are present, ids are pairwise distinct, and no present member attended
prep, is a leader, or is a graduate. -/
theorem divide_min_size_amended (members : List GroupMember)
    (num_groups0 max_iterations : Nat) (R : Rand) (hR : R.Valid)
    (hnodup : (members.map (fun m => m.id)).Nodup)
    (hnoprep : (members.filter (fun m => m.is_present)).filter
      (fun m => m.prep_attended) = [])
    (hnolead : ∀ m ∈ members.filter (fun m => m.is_present),
      m.role = MemberRole.REGULAR)
    (hnograd : ∀ m ∈ members.filter (fun m => m.is_present),
      (m.education_status == "graduated") = false)
    (hn : 4 ≤ (members.filter (fun m => m.is_present)).length) :
    ∀ g ∈ divide_into_groups members num_groups0 max_iterations R,
      4 ≤ g.members.length := by
  intro g hg
  unfold divide_into_groups at hg
  by_cases hmi : 0 < max_iterations
  · rw [if_pos hmi] at hg
    obtain ⟨gi, hgi, hGi⟩ := forall2_mem_right
      (balance_PartInv (divide_construct members R) max_iterations 0.1 R) g hg
    have hlen : g.members.length = gi.members.length := by
      have := hGi.1.length_eq
      simpa using this
    rw [hlen]
    exact divide_construct_sizes members R hR hnodup hnoprep hnolead hnograd hn gi hgi
  · rw [if_neg hmi] at hg
    exact divide_construct_sizes members R hR hnodup hnoprep hnolead hnograd hn g hg

/-- Input for the C3 amended witness: four present regular students. -/
def c3w_members : List GroupMember :=
  [⟨1, "a", "b", .REGULAR, "M", "x", "student", false, true, false⟩,
   ⟨2, "a", "b", .REGULAR, "F", "x", "student", false, true, false⟩,
   ⟨3, "a", "b", .REGULAR, "M", "x", "student", false, true, false⟩,
   ⟨4, "a", "b", .REGULAR, "F", "x", "student", false, true, false⟩]

/-- Witness for the amended C3. -/
theorem divide_min_size_amended_witness :
    4 ≤ ((divide_into_groups c3w_members 2 0 trivialRand).getD 0
      (Group.mk [])).members.length :=
  divide_min_size_amended c3w_members 2 0 trivialRand trivialRand_valid
    (by decide) (by decide) (by decide) (by decide) (by decide) _ (by decide)

/-! Conservation: every construction phase moves members around without
losing or duplicating any. -/

lemma members_of_appendAt_perm (groups : List Group) (i : Nat) (m : GroupMember)
    (hi : i < groups.length) :
    List.Perm (members_of (appendAt groups i m)) (m :: members_of groups) := by
  induction groups generalizing i with
  | nil => simp at hi
  | cons a t ih =>
    cases i with
    | zero =>
      show List.Perm (members_of (Group.mk (a.members ++ [m]) :: t))
        (m :: members_of (a :: t))
      simp only [members_of, List.flatMap_cons]
      rw [List.append_assoc]
      exact List.perm_middle
    | succ n =>
      have hn : n < t.length := by simpa using hi
      show List.Perm (members_of (a :: appendAt t n m)) (m :: members_of (a :: t))
      simp only [members_of, List.flatMap_cons]
      exact List.Perm.trans ((ih n hn).append_left _) List.perm_middle

lemma cons_perm_append_singleton (m : GroupMember) (l : List GroupMember) :
    List.Perm (l ++ [m]) (m :: l) := by
  simpa using @List.perm_middle _ m l []

lemma append_n_prep_conserve (i : Nat) :
    ∀ (n : Nat) (groups : List Group) (rest : List GroupMember), i < groups.length →
      List.Perm (members_of (append_n_prep groups i n rest).1
          ++ (append_n_prep groups i n rest).2)
        (members_of groups ++ rest) := by
  intro n
  induction n with
  | zero => intro groups rest _; exact List.Perm.refl _
  | succ k ih =>
    intro groups rest hi
    cases rest with
    | nil => exact List.Perm.refl _
    | cons m rest =>
      show List.Perm (members_of (append_n_prep (appendAt groups i m) i k rest).1
          ++ (append_n_prep (appendAt groups i m) i k rest).2)
        (members_of groups ++ m :: rest)
      refine List.Perm.trans
        (ih (appendAt groups i m) rest (by rw [appendAt_length]; exact hi)) ?_
      refine List.Perm.trans
        ((members_of_appendAt_perm groups i m hi).append_right rest) ?_
      exact List.perm_middle.symm

lemma distribute_min_prep_conserve (minp : Nat) :
    ∀ (idxs : List Nat) (groups : List Group) (rest : List GroupMember),
      (∀ i ∈ idxs, i < groups.length) →
      List.Perm (members_of (distribute_min_prep groups idxs minp rest).1
          ++ (distribute_min_prep groups idxs minp rest).2)
        (members_of groups ++ rest) := by
  intro idxs
  induction idxs with
  | nil => intro groups rest _; exact List.Perm.refl _
  | cons i0 is ih =>
    intro groups rest hbound
    show List.Perm (members_of (distribute_min_prep (append_n_prep groups i0 minp rest).1
        is minp (append_n_prep groups i0 minp rest).2).1
        ++ (distribute_min_prep (append_n_prep groups i0 minp rest).1
          is minp (append_n_prep groups i0 minp rest).2).2)
      (members_of groups ++ rest)
    refine List.Perm.trans (ih (append_n_prep groups i0 minp rest).1
      (append_n_prep groups i0 minp rest).2 ?_) ?_
    · intro j hj
      rw [(append_n_prep_extends groups i0 minp rest).1]
      exact hbound j (by simp [hj])
    · exact append_n_prep_conserve i0 minp groups rest (hbound i0 (by simp))

lemma distribute_min_prep_drop (minp : Nat) :
    ∀ (idxs : List Nat) (groups : List Group) (rest : List GroupMember),
      minp * idxs.length ≤ rest.length →
      (distribute_min_prep groups idxs minp rest).2
        = rest.drop (minp * idxs.length) := by
  intro idxs
  induction idxs with
  | nil => intro groups rest _; simp [distribute_min_prep]
  | cons i0 is ih =>
    intro groups rest hlen
    have hmul : minp * is.length + minp ≤ rest.length := by
      rw [List.length_cons, Nat.mul_succ] at hlen
      omega
    have hminle : minp ≤ rest.length := by omega
    have hdrop := append_n_prep_drop groups i0 minp rest hminle
    show (distribute_min_prep (append_n_prep groups i0 minp rest).1 is minp
      (append_n_prep groups i0 minp rest).2).2 = rest.drop (minp * (i0 :: is).length)
    rw [ih _ _ (by rw [hdrop, List.length_drop]; omega), hdrop, List.drop_drop,
      List.length_cons, Nat.mul_succ, Nat.add_comm]

lemma distribute_extra_prep_conserve :
    ∀ (idxs : List Nat) (groups : List Group) (rest : List GroupMember),
      (∀ i ∈ idxs, i < groups.length) →
      List.Perm (members_of (distribute_extra_prep groups idxs rest).1
          ++ (distribute_extra_prep groups idxs rest).2)
        (members_of groups ++ rest) := by
  intro idxs
  induction idxs with
  | nil => intro groups rest _; exact List.Perm.refl _
  | cons i0 is ih =>
    intro groups rest hbound
    cases rest with
    | nil => exact List.Perm.refl _
    | cons m rest =>
      show List.Perm (members_of (distribute_extra_prep (appendAt groups i0 m) is rest).1
          ++ (distribute_extra_prep (appendAt groups i0 m) is rest).2)
        (members_of groups ++ m :: rest)
      refine List.Perm.trans (ih (appendAt groups i0 m) rest ?_) ?_
      · intro j hj
        rw [appendAt_length]
        exact hbound j (by simp [hj])
      · refine List.Perm.trans
          ((members_of_appendAt_perm groups i0 m (hbound i0 (by simp))).append_right rest) ?_
        exact List.perm_middle.symm

lemma distribute_extra_prep_consumed :
    ∀ (idxs : List Nat) (groups : List Group) (rest : List GroupMember),
      rest.length ≤ idxs.length → (distribute_extra_prep groups idxs rest).2 = [] := by
  intro idxs
  induction idxs with
  | nil =>
    intro groups rest hlen
    exact List.length_eq_zero.mp (by simpa using hlen)
  | cons i0 is ih =>
    intro groups rest hlen
    cases rest with
    | nil => rfl
    | cons m rest => exact ih (appendAt groups i0 m) rest (by simpa using hlen)

lemma assign_one_each_conserve :
    ∀ (idxs : List Nat) (groups : List Group) (rem assigned : List GroupMember),
      (∀ i ∈ idxs, i < groups.length) →
      List.Perm (members_of (assign_one_each groups rem assigned idxs).1
          ++ (assign_one_each groups rem assigned idxs).2.1)
        (members_of groups ++ rem) ∧
      List.Perm ((assign_one_each groups rem assigned idxs).2.2
          ++ (assign_one_each groups rem assigned idxs).2.1)
        (assigned ++ rem) := by
  intro idxs
  induction idxs with
  | nil => intro groups rem assigned _; exact ⟨List.Perm.refl _, List.Perm.refl _⟩
  | cons i0 is ih =>
    intro groups rem assigned hbound
    cases hlast : rem.getLast? with
    | none =>
      have hnil : rem = [] := List.getLast?_eq_none_iff.mp hlast
      have hred : assign_one_each groups rem assigned (i0 :: is)
          = assign_one_each groups rem assigned is := by
        rw [assign_one_each, hlast]
      rw [hred]
      exact ih groups rem assigned (fun j hj => hbound j (by simp [hj]))
    | some m =>
      have hne : rem ≠ [] := by
        intro hnil
        rw [hnil] at hlast
        simp at hlast
      have hm : m = rem.getLast hne := by
        have := List.getLast?_eq_getLast_of_ne_nil hne
        rw [hlast] at this
        exact Option.some_inj.mp this
      have hsplit : rem.dropLast ++ [m] = rem := by
        rw [hm]
        exact List.dropLast_append_getLast hne
      have hred : assign_one_each groups rem assigned (i0 :: is)
          = assign_one_each (appendAt groups i0 m) rem.dropLast (assigned ++ [m]) is := by
        rw [assign_one_each, hlast]
      rw [hred]
      have hb' : ∀ j ∈ is, j < (appendAt groups i0 m).length := by
        intro j hj
        rw [appendAt_length]
        exact hbound j (by simp [hj])
      obtain ⟨ih1, ih2⟩ := ih (appendAt groups i0 m) rem.dropLast (assigned ++ [m]) hb'
      have h9 : List.Perm (m :: rem.dropLast) rem :=
        List.Perm.trans (cons_perm_append_singleton m rem.dropLast).symm
          (List.Perm.of_eq hsplit)
      constructor
      · refine List.Perm.trans ih1 ?_
        refine List.Perm.trans
          ((members_of_appendAt_perm groups i0 m (hbound i0 (by simp))).append_right
            rem.dropLast) ?_
        exact List.Perm.trans List.perm_middle.symm (h9.append_left _)
      · refine List.Perm.trans ih2 ?_
        have h10 : List.Perm ((assigned ++ [m]) ++ rem.dropLast) (assigned ++ rem) := by
          rw [List.append_assoc]
          exact h9.append_left assigned
        exact h10

lemma headD_mem {l : List Nat} (hne : l ≠ []) (d : Nat) : l.headD d ∈ l := by
  cases l with
  | nil => exact absurd rfl hne
  | cons a t => simp [List.headD]

lemma distribute_rest_facs_conserve :
    ∀ (fs : List GroupMember) (groups : List Group) (avail : List Nat)
      (assigned : List GroupMember), avail ≠ [] → (∀ i ∈ avail, i < groups.length) →
      List.Perm (members_of (distribute_rest_facs groups avail assigned fs).1)
        (members_of groups ++ fs) ∧
      List.Perm ((distribute_rest_facs groups avail assigned fs).2) (assigned ++ fs) := by
  intro fs
  induction fs with
  | nil =>
    intro groups avail assigned _ _
    exact ⟨by simp [distribute_rest_facs], by simp [distribute_rest_facs]⟩
  | cons f fs ih =>
    intro groups avail assigned hne hbound
    have hmem : avail.headD 0 ∈ avail := headD_mem hne 0
    have hi : avail.headD 0 < groups.length := hbound _ hmem
    have hsperm : List.Perm (sort_by_size (appendAt groups (avail.headD 0) f) avail) avail :=
      List.perm_insertionSort _ avail
    have hsne : sort_by_size (appendAt groups (avail.headD 0) f) avail ≠ [] := by
      intro hnil
      rw [← List.length_pos] at hne
      have := hsperm.length_eq
      rw [hnil] at this
      simp at this
      omega
    have hsbound : ∀ i ∈ sort_by_size (appendAt groups (avail.headD 0) f) avail,
        i < (appendAt groups (avail.headD 0) f).length := by
      intro i hia
      rw [appendAt_length]
      exact hbound i (hsperm.mem_iff.mp hia)
    obtain ⟨ih1, ih2⟩ := ih (appendAt groups (avail.headD 0) f)
      (sort_by_size (appendAt groups (avail.headD 0) f) avail) (assigned ++ [f])
      hsne hsbound
    constructor
    · refine List.Perm.trans ih1 ?_
      refine List.Perm.trans
        ((members_of_appendAt_perm groups (avail.headD 0) f hi).append_right fs) ?_
      exact List.perm_middle.symm
    · refine List.Perm.trans ih2 ?_
      rw [List.append_assoc]
      exact List.Perm.refl _

lemma distribute_rest_couns_conserve :
    ∀ (cs : List GroupMember) (groups : List Group) (avail : List Nat)
      (assigned : List GroupMember), avail ≠ [] → (∀ i ∈ avail, i < groups.length) →
      List.Perm (members_of (distribute_rest_couns groups avail assigned cs).1)
        (members_of groups ++ cs) ∧
      List.Perm ((distribute_rest_couns groups avail assigned cs).2) (assigned ++ cs) := by
  intro cs
  induction cs with
  | nil =>
    intro groups avail assigned _ _
    exact ⟨by simp [distribute_rest_couns], by simp [distribute_rest_couns]⟩
  | cons c cs ih =>
    intro groups avail assigned hne hbound
    have hsperm : List.Perm (sort_by_couns groups avail) avail :=
      List.perm_insertionSort _ avail
    have hsne : sort_by_couns groups avail ≠ [] := by
      intro hnil
      rw [← List.length_pos] at hne
      have := hsperm.length_eq
      rw [hnil] at this
      simp at this
      omega
    have hmem : (sort_by_couns groups avail).headD 0 ∈ avail :=
      hsperm.mem_iff.mp (headD_mem hsne 0)
    have hi : (sort_by_couns groups avail).headD 0 < groups.length := hbound _ hmem
    have hsbound : ∀ i ∈ sort_by_couns groups avail,
        i < (appendAt groups ((sort_by_couns groups avail).headD 0) c).length := by
      intro i hia
      rw [appendAt_length]
      exact hbound i (hsperm.mem_iff.mp hia)
    obtain ⟨ih1, ih2⟩ := ih (appendAt groups ((sort_by_couns groups avail).headD 0) c)
      (sort_by_couns groups avail) (assigned ++ [c]) hsne hsbound
    constructor
    · refine List.Perm.trans ih1 ?_
      refine List.Perm.trans
        ((members_of_appendAt_perm groups _ c hi).append_right cs) ?_
      exact List.perm_middle.symm
    · refine List.Perm.trans ih2 ?_
      rw [List.append_assoc]
      exact List.Perm.refl _

lemma distribute_members_min_conserve :
    ∀ (ms : List GroupMember) (groups : List Group) (cands : List Nat),
      cands ≠ [] → (∀ i ∈ cands, i < groups.length) →
      List.Perm (members_of (distribute_members_min groups cands ms))
        (members_of groups ++ ms) := by
  intro ms
  induction ms with
  | nil => intro groups cands _ _; simp [distribute_members_min]
  | cons m ms ih =>
    intro groups cands hne hbound
    obtain ⟨hmem, _⟩ := first_min_idx_spec (group_size groups) cands hne
    have hi : first_min_idx (group_size groups) cands < groups.length := hbound _ hmem
    show List.Perm (members_of (distribute_members_min
        (appendAt groups (first_min_idx (group_size groups) cands) m) cands ms))
      (members_of groups ++ m :: ms)
    refine List.Perm.trans (ih (appendAt groups _ m) cands hne ?_) ?_
    · intro j hj
      rw [appendAt_length]
      exact hbound j hj
    · refine List.Perm.trans
        ((members_of_appendAt_perm groups _ m hi).append_right ms) ?_
      exact List.perm_middle.symm

lemma distribute_students_min_conserve :
    ∀ (ss : List GroupMember) (groups : List Group) (cands : List Nat)
      (seen : List GroupMember), ss.Nodup → (∀ s ∈ ss, s ∉ seen) →
      cands ≠ [] → (∀ i ∈ cands, i < groups.length) →
      List.Perm (members_of (distribute_students_min groups cands seen ss))
        (members_of groups ++ ss) := by
  intro ss
  induction ss with
  | nil => intro groups cands seen _ _ _ _; simp [distribute_students_min]
  | cons s ss ih =>
    intro groups cands seen hnd hfresh hne hbound
    have hs : s ∉ seen := hfresh s (by simp)
    have hred : distribute_students_min groups cands seen (s :: ss)
        = distribute_students_min
            (appendAt groups (first_min_idx (group_size groups) cands) s)
            cands (seen ++ [s]) ss := by
      rw [distribute_students_min, if_neg hs]
    rw [hred]
    obtain ⟨hmem, _⟩ := first_min_idx_spec (group_size groups) cands hne
    have hi : first_min_idx (group_size groups) cands < groups.length := hbound _ hmem
    have hfresh' : ∀ t ∈ ss, t ∉ seen ++ [s] := by
      intro t ht hmem2
      rcases List.mem_append.mp hmem2 with hm | hm
      · exact hfresh t (by simp [ht]) hm
      · have hts : t = s := by simpa using hm
        rw [hts] at ht
        exact (List.nodup_cons.mp hnd).1 ht
    refine List.Perm.trans (ih (appendAt groups _ s) cands (seen ++ [s])
      (List.nodup_cons.mp hnd).2 hfresh' hne ?_) ?_
    · intro j hj
      rw [appendAt_length]
      exact hbound j hj
    · refine List.Perm.trans
        ((members_of_appendAt_perm groups _ s hi).append_right ss) ?_
      exact List.perm_middle.symm

lemma divide_prep_phase_members_perm (num_groups : Nat) (group_indices : List Nat)
    (prep_attendees : List GroupMember) (hng : 0 < num_groups)
    (hlen : group_indices.length = num_groups)
    (hb : ∀ i ∈ group_indices, i < num_groups) :
    List.Perm (members_of (divide_prep_phase num_groups group_indices prep_attendees))
      prep_attendees := by
  unfold divide_prep_phase
  lift_lets
  intro groups0 total_prep min_prep_per_group extra_prep pr1
  have hlen0 : groups0.length = num_groups := by
    show ((List.range num_groups).map _).length = num_groups
    simp
  have hb0 : ∀ i ∈ group_indices, i < groups0.length := by
    rw [hlen0]
    exact hb
  have hc1 : List.Perm (members_of pr1.1 ++ pr1.2)
      (members_of groups0 ++ prep_attendees) :=
    distribute_min_prep_conserve min_prep_per_group group_indices groups0
      prep_attendees hb0
  have hm0 : members_of groups0 = [] := members_of_empties _
  have hmul : min_prep_per_group * group_indices.length ≤ prep_attendees.length := by
    rw [hlen]
    show prep_attendees.length / num_groups * num_groups ≤ prep_attendees.length
    exact Nat.div_mul_le_self _ _
  have hdrop : pr1.2 = prep_attendees.drop (min_prep_per_group * group_indices.length) :=
    distribute_min_prep_drop min_prep_per_group group_indices groups0
      prep_attendees hmul
  have hlenr : pr1.2.length = extra_prep := by
    rw [hdrop, List.length_drop, hlen]
    show prep_attendees.length - prep_attendees.length / num_groups * num_groups
      = prep_attendees.length % num_groups
    rw [Nat.mod_def, Nat.mul_comm]
  have htake_len : (group_indices.take extra_prep).length = extra_prep := by
    rw [List.length_take, hlen]
    have hmlt : extra_prep < num_groups := by
      show prep_attendees.length % num_groups < num_groups
      exact Nat.mod_lt _ hng
    omega
  have hb2 : ∀ i ∈ group_indices.take extra_prep, i < pr1.1.length := by
    intro i hi
    have h1 : i ∈ group_indices := List.mem_of_mem_take hi
    have h2 : pr1.1.length = groups0.length := (distribute_min_prep_extends _ _ _ _).1
    rw [h2, hlen0]
    exact hb i h1
  have hcons : (distribute_extra_prep pr1.1 (group_indices.take extra_prep) pr1.2).2
      = [] := by
    refine distribute_extra_prep_consumed _ _ _ ?_
    rw [hlenr, htake_len]
  have hc2 := distribute_extra_prep_conserve (group_indices.take extra_prep)
    pr1.1 pr1.2 hb2
  rw [hcons, List.append_nil] at hc2
  have hfin := hc2.trans hc1
  rw [hm0, List.nil_append] at hfin
  exact hfin

lemma divide_leaders_and_rest_members_perm (present_members : List GroupMember)
    (R : Rand) (num_groups : Nat) (prep_attendees : List GroupMember)
    (groups1 : List Group) (hval : R.Valid) (hlen1 : groups1.length = num_groups)
    (hng : 0 < num_groups) (hndp : present_members.Nodup)
    (hndprep : prep_attendees.Nodup)
    (hsubprep : ∀ m ∈ prep_attendees, m ∈ present_members) :
    List.Perm
      (members_of (divide_leaders_and_rest present_members R num_groups
        prep_attendees groups1) ++ prep_attendees)
      (members_of groups1 ++ present_members) := by
  unfold divide_leaders_and_rest
  lift_lets
  intro assigned1 remaining_facilitators remaining_counselors groups_without_facilitators
    t1 groups2 remaining_facilitators2 assigned2 groups_without_counselors t2 groups3
    remaining_counselors2 assigned3 t3 groups4 assigned4 t4 groups5 assigned5 unassigned
    graduates current_students num_grad_groups sorted_idxs grad_group_indices grad_cands
    g6 non_grad_cands
  have hRF : List.Perm remaining_facilitators
      (present_members.filter
        (fun m => m.role == MemberRole.FACILITATOR && !(assigned1.contains m))) :=
    hval.2.2.1 _
  have hRC : List.Perm remaining_counselors
      (present_members.filter
        (fun m => m.role == MemberRole.COUNSELOR && !(assigned1.contains m))) :=
    hval.2.2.2.1 _
  have hsubRF : ∀ m ∈ remaining_facilitators, m ∈ present_members := by
    intro m hm
    exact (List.mem_filter.mp (hRF.mem_iff.mp hm)).1
  have hsubRC : ∀ m ∈ remaining_counselors, m ∈ present_members := by
    intro m hm
    exact (List.mem_filter.mp (hRC.mem_iff.mp hm)).1
  have hnotprepRF : ∀ m ∈ remaining_facilitators, m ∉ prep_attendees := by
    intro m hm hmem
    have h1 := (List.mem_filter.mp (hRF.mem_iff.mp hm)).2
    rw [Bool.and_eq_true, Bool.not_eq_true'] at h1
    have h2 : assigned1.contains m = true := List.elem_iff.mpr hmem
    rw [h1.2] at h2
    exact Bool.false_ne_true h2
  have hnotprepRC : ∀ m ∈ remaining_counselors, m ∉ prep_attendees := by
    intro m hm hmem
    have h1 := (List.mem_filter.mp (hRC.mem_iff.mp hm)).2
    rw [Bool.and_eq_true, Bool.not_eq_true'] at h1
    have h2 : assigned1.contains m = true := List.elem_iff.mpr hmem
    rw [h1.2] at h2
    exact Bool.false_ne_true h2
  have hroleRF : ∀ m ∈ remaining_facilitators, m.role = MemberRole.FACILITATOR := by
    intro m hm
    have h1 := (List.mem_filter.mp (hRF.mem_iff.mp hm)).2
    rw [Bool.and_eq_true] at h1
    exact beq_iff_eq.mp h1.1
  have hroleRC : ∀ m ∈ remaining_counselors, m.role = MemberRole.COUNSELOR := by
    intro m hm
    have h1 := (List.mem_filter.mp (hRC.mem_iff.mp hm)).2
    rw [Bool.and_eq_true] at h1
    exact beq_iff_eq.mp h1.1
  have hndRF : remaining_facilitators.Nodup := hRF.nodup_iff.mpr (hndp.filter _)
  have hndRC : remaining_counselors.Nodup := hRC.nodup_iff.mpr (hndp.filter _)
  have hb1 : ∀ i ∈ groups_without_facilitators, i < groups1.length := by
    intro i hi
    obtain ⟨p, hp, hpi⟩ := List.mem_map.mp hi
    have hpe := (List.mem_filter.mp hp).1
    rw [← hpi]
    exact List.fst_lt_of_mem_enum hpe
  have hc1 := assign_one_each_conserve groups_without_facilitators groups1
    remaining_facilitators assigned1 hb1
  have hc1m : List.Perm (members_of groups2 ++ remaining_facilitators2)
      (members_of groups1 ++ remaining_facilitators) := hc1.1
  have hc1a : List.Perm (assigned2 ++ remaining_facilitators2)
      (assigned1 ++ remaining_facilitators) := hc1.2
  have hlen2 : groups2.length = groups1.length :=
    (assign_one_each_extends groups1 remaining_facilitators assigned1
      groups_without_facilitators).1
  have hb2 : ∀ i ∈ groups_without_counselors, i < groups2.length := by
    intro i hi
    obtain ⟨p, hp, hpi⟩ := List.mem_map.mp hi
    have hpe := (List.mem_filter.mp hp).1
    rw [← hpi]
    exact List.fst_lt_of_mem_enum hpe
  have hc2 := assign_one_each_conserve groups_without_counselors groups2
    remaining_counselors assigned2 hb2
  have hc2m : List.Perm (members_of groups3 ++ remaining_counselors2)
      (members_of groups2 ++ remaining_counselors) := hc2.1
  have hc2a : List.Perm (assigned3 ++ remaining_counselors2)
      (assigned2 ++ remaining_counselors) := hc2.2
  have hlen3 : groups3.length = num_groups := by
    show (assign_one_each groups2 remaining_counselors assigned2
      groups_without_counselors).1.length = num_groups
    rw [(assign_one_each_extends _ _ _ _).1, hlen2, hlen1]
  have hg4 : groups4 = (if remaining_facilitators2 = [] then (groups3, assigned3)
      else distribute_rest_facs groups3
        (sort_by_size groups3 (R.shuffleAvail (List.range num_groups))) assigned3
        remaining_facilitators2).1 := rfl
  have ha4 : assigned4 = (if remaining_facilitators2 = [] then (groups3, assigned3)
      else distribute_rest_facs groups3
        (sort_by_size groups3 (R.shuffleAvail (List.range num_groups))) assigned3
        remaining_facilitators2).2 := rfl
  have hstep3 : List.Perm (members_of groups4)
        (members_of groups3 ++ remaining_facilitators2) ∧
      List.Perm assigned4 (assigned3 ++ remaining_facilitators2) ∧
      groups4.length = num_groups := by
    by_cases hrf : remaining_facilitators2 = []
    · rw [if_pos hrf] at hg4 ha4
      rw [hg4, ha4, hrf]
      exact ⟨by rw [List.append_nil], by rw [List.append_nil], hlen3⟩
    · rw [if_neg hrf] at hg4 ha4
      have hshp : List.Perm (R.shuffleAvail (List.range num_groups))
          (List.range num_groups) := hval.2.2.2.2 _
      have hsv : List.Perm
          (sort_by_size groups3 (R.shuffleAvail (List.range num_groups)))
          (List.range num_groups) := (List.perm_insertionSort _ _).trans hshp
      have havne : sort_by_size groups3 (R.shuffleAvail (List.range num_groups))
          ≠ [] := by
        intro h
        have h2 := hsv.length_eq
        rw [h] at h2
        simp at h2
        omega
      have havb : ∀ i ∈ sort_by_size groups3 (R.shuffleAvail (List.range num_groups)),
          i < groups3.length := by
        intro i hi
        rw [hlen3]
        exact List.mem_range.mp (hsv.mem_iff.mp hi)
      obtain ⟨hm, ha⟩ := distribute_rest_facs_conserve remaining_facilitators2
        groups3 _ assigned3 havne havb
      rw [hg4, ha4]
      refine ⟨hm, ha, ?_⟩
      rw [(distribute_rest_facs_extends _ _ _ _).1]
      exact hlen3
  obtain ⟨hc3m, hc3a, hlen4⟩ := hstep3
  have hg5 : groups5 = (if remaining_counselors2 = [] then (groups4, assigned4)
      else distribute_rest_couns groups4 (List.range num_groups) assigned4
        remaining_counselors2.reverse).1 := rfl
  have ha5 : assigned5 = (if remaining_counselors2 = [] then (groups4, assigned4)
      else distribute_rest_couns groups4 (List.range num_groups) assigned4
        remaining_counselors2.reverse).2 := rfl
  have hstep4 : List.Perm (members_of groups5)
        (members_of groups4 ++ remaining_counselors2) ∧
      List.Perm assigned5 (assigned4 ++ remaining_counselors2) ∧
      groups5.length = num_groups := by
    by_cases hrc : remaining_counselors2 = []
    · rw [if_pos hrc] at hg5 ha5
      rw [hg5, ha5, hrc]
      exact ⟨by rw [List.append_nil], by rw [List.append_nil], hlen4⟩
    · rw [if_neg hrc] at hg5 ha5
      have hrne : (List.range num_groups) ≠ [] := by
        intro h
        rw [List.range_eq_nil] at h
        omega
      have hrb : ∀ i ∈ List.range num_groups, i < groups4.length := by
        intro i hi
        rw [hlen4]
        exact List.mem_range.mp hi
      obtain ⟨hm, ha⟩ := distribute_rest_couns_conserve remaining_counselors2.reverse
        groups4 (List.range num_groups) assigned4 hrne hrb
      rw [hg5, ha5]
      refine ⟨hm.trans ?_, ha.trans ?_, ?_⟩
      · exact List.Perm.append_left _ (List.reverse_perm _)
      · exact List.Perm.append_left _ (List.reverse_perm _)
      · rw [(distribute_rest_couns_extends _ _ _ _).1]
        exact hlen4
  obtain ⟨hc4m, hc4a, hlen5⟩ := hstep4
  have hA1 : assigned1 = prep_attendees := rfl
  have eA5 : (assigned5 : Multiset GroupMember)
      = ↑prep_attendees + ↑remaining_facilitators + ↑remaining_counselors := by
    have e1 := Multiset.coe_eq_coe.mpr hc4a
    have e2 := Multiset.coe_eq_coe.mpr hc3a
    have e3 := Multiset.coe_eq_coe.mpr hc2a
    have e4 := Multiset.coe_eq_coe.mpr hc1a
    simp only [← Multiset.coe_add] at e1 e2 e3 e4
    rw [hA1] at e4
    calc (assigned5 : Multiset GroupMember)
        = ↑assigned3 + ↑remaining_facilitators2 + ↑remaining_counselors2 := by
          rw [e1, e2]
      _ = (↑assigned3 + ↑remaining_counselors2) + ↑remaining_facilitators2 := by abel
      _ = (↑assigned2 + ↑remaining_counselors) + ↑remaining_facilitators2 := by rw [e3]
      _ = (↑assigned2 + ↑remaining_facilitators2) + ↑remaining_counselors := by abel
      _ = (↑prep_attendees + ↑remaining_facilitators) + ↑remaining_counselors := by
          rw [e4]
      _ = ↑prep_attendees + ↑remaining_facilitators + ↑remaining_counselors := by abel
  have eM5 : (members_of groups5 : Multiset GroupMember)
      = ↑(members_of groups1) + ↑remaining_facilitators + ↑remaining_counselors := by
    have e1 := Multiset.coe_eq_coe.mpr hc4m
    have e2 := Multiset.coe_eq_coe.mpr hc3m
    have e3 := Multiset.coe_eq_coe.mpr hc2m
    have e4 := Multiset.coe_eq_coe.mpr hc1m
    simp only [← Multiset.coe_add] at e1 e2 e3 e4
    calc (members_of groups5 : Multiset GroupMember)
        = ↑(members_of groups3) + ↑remaining_facilitators2 + ↑remaining_counselors2 := by
          rw [e1, e2]
      _ = (↑(members_of groups3) + ↑remaining_counselors2)
            + ↑remaining_facilitators2 := by abel
      _ = (↑(members_of groups2) + ↑remaining_counselors)
            + ↑remaining_facilitators2 := by rw [e3]
      _ = (↑(members_of groups2) + ↑remaining_facilitators2)
            + ↑remaining_counselors := by abel
      _ = (↑(members_of groups1) + ↑remaining_facilitators)
            + ↑remaining_counselors := by rw [e4]
      _ = ↑(members_of groups1) + ↑remaining_facilitators
            + ↑remaining_counselors := by abel
  have hA5perm : List.Perm assigned5
      ((prep_attendees ++ remaining_facilitators) ++ remaining_counselors) := by
    rw [← Multiset.coe_eq_coe]
    simp only [← Multiset.coe_add]
    rw [eA5]
  have hndA5 : assigned5.Nodup := by
    rw [hA5perm.nodup_iff]
    refine List.Nodup.append (List.Nodup.append hndprep hndRF ?_) hndRC ?_
    · intro a ha1 ha2
      exact hnotprepRF a ha2 ha1
    · intro a ha1 ha2
      rcases List.mem_append.mp ha1 with h | h
      · exact hnotprepRC a ha2 h
      · have h1 := hroleRF a h
        have h2 := hroleRC a ha2
        rw [h1] at h2
        simp at h2
  have hsubA5 : ∀ m ∈ assigned5, m ∈ present_members := by
    intro m hm
    rcases List.mem_append.mp (hA5perm.mem_iff.mp hm) with h | h
    · rcases List.mem_append.mp h with h2 | h2
      · exact hsubprep m h2
      · exact hsubRF m h2
    · exact hsubRC m h
  have hfa : List.Perm (present_members.filter (fun m => assigned5.contains m))
      assigned5 := by
    refine (List.perm_ext_iff_of_nodup (hndp.filter _) hndA5).mpr ?_
    intro a
    constructor
    · intro h
      exact List.elem_iff.mp (List.mem_filter.mp h).2
    · intro h
      exact List.mem_filter.mpr ⟨hsubA5 a h, List.elem_iff.mpr h⟩
  have hpres : List.Perm present_members (assigned5 ++ unassigned) := by
    refine List.Perm.trans
      (List.filter_append_perm (fun m => assigned5.contains m) present_members).symm ?_
    exact hfa.append_right unassigned
  have hgs : List.Perm (graduates ++ current_students) unassigned :=
    List.filter_append_perm _ unassigned
  have hndun : unassigned.Nodup := hndp.filter _
  have hndcs : current_students.Nodup := hndun.filter _
  have ePres : (present_members : Multiset GroupMember)
      = ↑prep_attendees + ↑remaining_facilitators + ↑remaining_counselors
        + ↑graduates + ↑current_students := by
    have e1 := Multiset.coe_eq_coe.mpr hpres
    have e2 := Multiset.coe_eq_coe.mpr hgs
    simp only [← Multiset.coe_add] at e1 e2
    rw [e1, eA5, ← e2]
    abel
  by_cases hgrad : graduates = []
  · rw [if_pos hgrad]
    have hrne : (List.range num_groups) ≠ [] := by
      intro h
      rw [List.range_eq_nil] at h
      omega
    have hrb : ∀ i ∈ List.range num_groups, i < groups5.length := by
      intro i hi
      rw [hlen5]
      exact List.mem_range.mp hi
    have hout := distribute_students_min_conserve current_students groups5
      (List.range num_groups) [] hndcs (by intro s _ h; exact List.not_mem_nil s h)
      hrne hrb
    have eOut := Multiset.coe_eq_coe.mpr hout
    simp only [← Multiset.coe_add] at eOut
    rw [← Multiset.coe_eq_coe]
    simp only [← Multiset.coe_add]
    rw [eOut, eM5, ePres, hgrad]
    simp only [Multiset.coe_nil]
    abel
  · rw [if_neg hgrad]
    have hsi : List.Perm sorted_idxs (List.range num_groups) :=
      List.perm_insertionSort _ _
    have hsine : sorted_idxs ≠ [] := by
      intro h
      have h2 := hsi.length_eq
      rw [h] at h2
      simp at h2
      omega
    obtain ⟨a, t, hat⟩ := List.exists_cons_of_ne_nil hsine
    have hngg : 1 ≤ num_grad_groups := by
      show 1 ≤ (graduates.length + 7 - 1) / 7
      have h1 : 0 < graduates.length := List.length_pos.mpr hgrad
      omega
    have hamem : a ∈ grad_group_indices := by
      show a ∈ sorted_idxs.take num_grad_groups
      obtain ⟨k, hk⟩ := Nat.exists_eq_add_of_le hngg
      rw [hat, hk, Nat.add_comm 1 k, List.take_succ_cons]
      exact List.mem_cons_self a _
    have hamemr : a ∈ List.range num_groups :=
      hsi.mem_iff.mp (by rw [hat]; exact List.mem_cons_self a t)
    have hagc : a ∈ grad_cands := by
      show a ∈ (List.range num_groups).filter (fun i => grad_group_indices.contains i)
      exact List.mem_filter.mpr ⟨hamemr, List.elem_iff.mpr hamem⟩
    have hgcne : grad_cands ≠ [] := List.ne_nil_of_mem hagc
    have hgcb : ∀ i ∈ grad_cands, i < groups5.length := by
      intro i hi
      have h2 : i ∈ List.range num_groups := (List.mem_filter.mp hi).1
      rw [hlen5]
      exact List.mem_range.mp h2
    have hg6m := distribute_members_min_conserve graduates groups5 grad_cands hgcne hgcb
    have hlen6 : g6.length = num_groups := by
      show (distribute_members_min groups5 grad_cands graduates).length = num_groups
      rw [(distribute_members_min_extends _ _ _).1]
      exact hlen5
    have eG6 : (members_of g6 : Multiset GroupMember)
        = ↑(members_of groups5) + ↑graduates := by
      have h2 := Multiset.coe_eq_coe.mpr hg6m
      simpa using h2
    by_cases hngc : non_grad_cands ≠ []
    · rw [if_pos hngc]
      have hb6 : ∀ i ∈ non_grad_cands, i < g6.length := by
        intro i hi
        have h2 : i ∈ List.range num_groups := (List.mem_filter.mp hi).1
        rw [hlen6]
        exact List.mem_range.mp h2
      have hout := distribute_students_min_conserve current_students g6 non_grad_cands
        [] hndcs (by intro s _ h; exact List.not_mem_nil s h) hngc hb6
      have eOut := Multiset.coe_eq_coe.mpr hout
      simp only [← Multiset.coe_add] at eOut
      rw [← Multiset.coe_eq_coe]
      simp only [← Multiset.coe_add]
      rw [eOut, eG6, eM5, ePres]
      abel
    · rw [if_neg hngc]
      have hrne : (List.range num_groups) ≠ [] := by
        intro h
        rw [List.range_eq_nil] at h
        omega
      have hrb : ∀ i ∈ List.range num_groups, i < g6.length := by
        intro i hi
        rw [hlen6]
        exact List.mem_range.mp hi
      have hout := distribute_students_min_conserve current_students g6
        (List.range num_groups) [] hndcs
        (by intro s _ h; exact List.not_mem_nil s h) hrne hrb
      have eOut := Multiset.coe_eq_coe.mpr hout
      simp only [← Multiset.coe_add] at eOut
      rw [← Multiset.coe_eq_coe]
      simp only [← Multiset.coe_add]
      rw [eOut, eG6, eM5, ePres]
      abel

lemma divide_construct_members_perm (members : List GroupMember) (R : Rand)
    (hval : R.Valid) (hnd : members.Nodup) :
    List.Perm (members_of (divide_construct members R))
      (members.filter (fun m => m.is_present)) := by
  unfold divide_construct
  lift_lets
  intro present_members num_groups prep_attendees group_indices
  have hidx : List.Perm group_indices (List.range num_groups) := hval.2.1 _
  have hlenidx : group_indices.length = num_groups := by simpa using hidx.length_eq
  have hbidx : ∀ i ∈ group_indices, i < num_groups := fun i hi =>
    List.mem_range.mp (hidx.mem_iff.mp hi)
  have hng : 0 < num_groups := by
    show 0 < num_groups_of members
    unfold num_groups_of
    omega
  have hprep_perm : List.Perm prep_attendees
      (present_members.filter (fun m => m.prep_attended)) := hval.1 _
  have hndp : present_members.Nodup := hnd.filter _
  have hndprep : prep_attendees.Nodup := hprep_perm.nodup_iff.mpr (hndp.filter _)
  have hsubprep : ∀ m ∈ prep_attendees, m ∈ present_members := fun m hm =>
    (List.mem_filter.mp (hprep_perm.mem_iff.mp hm)).1
  have hpp : List.Perm
      (members_of (divide_prep_phase num_groups group_indices prep_attendees))
      prep_attendees :=
    divide_prep_phase_members_perm num_groups group_indices prep_attendees
      hng hlenidx hbidx
  have hmain := divide_leaders_and_rest_members_perm present_members R num_groups
    prep_attendees (divide_prep_phase num_groups group_indices prep_attendees) hval
    (divide_prep_phase_length _ _ _) hng hndp hndprep hsubprep
  have h2 : List.Perm
      (members_of (divide_leaders_and_rest present_members R num_groups prep_attendees
        (divide_prep_phase num_groups group_indices prep_attendees))
        ++ prep_attendees)
      (prep_attendees ++ present_members) := hmain.trans (hpp.append_right _)
  exact (List.perm_append_right_iff _).mp (h2.trans List.perm_append_comm)

/-- C1: for every input member list with pairwise-distinct ids, every
group-count hint, every iteration budget and every valid sequence of random
choices, the members of the partition returned by `divide_into_groups` are
exactly the present input members — each present member appears in exactly one
group (none dropped, none duplicated), and no absent member appears. -/
theorem divide_partition_conservation (members : List GroupMember)
    (num_groups0 max_iterations : Nat) (R : Rand) (hR : R.Valid)
    (hnd : (members.map (fun m => m.id)).Nodup) :
    List.Perm
      (members_of (divide_into_groups members num_groups0 max_iterations R))
      (members.filter (fun m => m.is_present)) := by
  have hndm : members.Nodup := hnd.of_map
  have hcon := divide_construct_members_perm members R hR hndm
  unfold divide_into_groups
  split
  · have hids : (all_member_ids (divide_construct members R)).Nodup := by
      rw [all_member_ids_eq]
      have hsub : (members.filter (fun m => m.is_present)).Sublist members :=
        List.filter_sublist members
      have hnd2 : ((members.filter (fun m => m.is_present)).map
          (fun m => m.id)).Nodup := (hsub.map _).nodup hnd
      exact ((hcon.map _).nodup_iff).mpr hnd2
    exact (balance_members_perm _ max_iterations 0.1 R hids).trans hcon
  · exact hcon

/-- Witness for C1 at a concrete two-member input. -/
theorem divide_partition_conservation_witness :
    List.Perm
      (members_of (divide_into_groups
        [⟨1, "a", "b", .REGULAR, "M", "x", "student", false, true, false⟩,
         ⟨2, "c", "d", .FACILITATOR, "F", "y", "student", false, false, false⟩]
        3 25 trivialRand))
      (([⟨1, "a", "b", .REGULAR, "M", "x", "student", false, true, false⟩,
         ⟨2, "c", "d", .FACILITATOR, "F", "y", "student", false, false, false⟩]
        : List GroupMember).filter (fun m => m.is_present)) :=
  divide_partition_conservation _ 3 25 trivialRand trivialRand_valid (by decide)

/-! Entropy bounds for the balancing loop: a perfectly balanced partition is a
global maximum of `calculate_gender_entropy` among the states the loop can
reach. -/

/-- Common shape of the two per-group entropy terms: binary Shannon entropy of
the pair of counts `(a, b)`. -/
noncomputable def entropy2 (a b : Nat) : ℝ :=
  if 0 < a + b then
    Real.negMulLog ((a : ℝ) / ((a + b : Nat) : ℝ))
      + Real.negMulLog ((b : ℝ) / ((a + b : Nat) : ℝ))
  else 0

lemma group_gender_entropy_eq2 (g : Group) :
    group_gender_entropy g
      = entropy2 (g.members.countP (fun m => m.gender == "M"))
          (g.members.countP (fun m => m.gender == "F")) := rfl

lemma group_counselor_entropy_eq2 (g : Group) :
    group_counselor_entropy g
      = entropy2
          (g.members.countP (fun m => m.gender == "M" && m.role == MemberRole.COUNSELOR))
          (g.members.countP (fun m => m.gender == "F" && m.role == MemberRole.COUNSELOR))
      := rfl

lemma negMulLog_half_sum : Real.negMulLog (1/2) + Real.negMulLog (1/2) = Real.log 2 := by
  have h := Real.binEntropy_eq_negMulLog_add_negMulLog_one_sub (1/2 : ℝ)
  rw [show (1:ℝ) - 1/2 = 1/2 by norm_num] at h
  rw [← h, show ((1:ℝ)/2) = (2:ℝ)⁻¹ by norm_num, Real.binEntropy_two_inv]

lemma entropy2_nonneg (a b : Nat) : 0 ≤ entropy2 a b := by
  unfold entropy2
  split
  · rename_i h
    have h0 : (0:ℝ) < ((a + b : Nat) : ℝ) := by exact_mod_cast h
    have ha1 : (a : ℝ) / ((a + b : Nat) : ℝ) ≤ 1 := by
      rw [div_le_one h0]
      exact_mod_cast Nat.le_add_right a b
    have hb1 : (b : ℝ) / ((a + b : Nat) : ℝ) ≤ 1 := by
      rw [div_le_one h0]
      exact_mod_cast Nat.le_add_left b a
    have ha0 : (0:ℝ) ≤ (a : ℝ) / ((a + b : Nat) : ℝ) := by positivity
    have hb0 : (0:ℝ) ≤ (b : ℝ) / ((a + b : Nat) : ℝ) := by positivity
    exact add_nonneg (Real.negMulLog_nonneg ha0 ha1) (Real.negMulLog_nonneg hb0 hb1)
  · exact le_refl 0

lemma entropy2_le_log_two (a b : Nat) : entropy2 a b ≤ Real.log 2 := by
  unfold entropy2
  split
  · rename_i h
    have h0 : (0:ℝ) < ((a + b : Nat) : ℝ) := by exact_mod_cast h
    have hsub : (b : ℝ) / ((a + b : Nat) : ℝ) = 1 - (a : ℝ) / ((a + b : Nat) : ℝ) := by
      rw [eq_sub_iff_add_eq, div_add_div_same]
      rw [show (b : ℝ) + (a : ℝ) = ((a + b : Nat) : ℝ) by push_cast; ring]
      exact div_self (ne_of_gt h0)
    rw [hsub, ← Real.binEntropy_eq_negMulLog_add_negMulLog_one_sub]
    exact Real.binEntropy_le_log_two
  · exact le_of_lt (Real.log_pos (by norm_num))

lemma entropy2_self_pos {a : Nat} (h : 0 < a) : entropy2 a a = Real.log 2 := by
  unfold entropy2
  rw [if_pos (by omega)]
  have h0 : ((a + a : Nat) : ℝ) ≠ 0 := by
    have : (0:ℝ) < ((a + a : Nat) : ℝ) := by exact_mod_cast Nat.lt_of_lt_of_le h (by omega)
    exact ne_of_gt this
  have hq : (a : ℝ) / ((a + a : Nat) : ℝ) = 1/2 := by
    rw [div_eq_iff h0]
    push_cast
    ring
  rw [hq]
  exact negMulLog_half_sum

lemma entropy2_zero_zero : entropy2 0 0 = 0 := rfl

/-- When every gender is `"M"` or `"F"`, the two gender counts partition the
list. -/
lemma countP_gender_split (l : List GroupMember)
    (h : ∀ m ∈ l, m.gender = "M" ∨ m.gender = "F") :
    l.countP (fun m => m.gender == "M") + l.countP (fun m => m.gender == "F")
      = l.length := by
  induction l with
  | nil => rfl
  | cons a t ih =>
    have ha := h a (by simp)
    have ih2 := ih (fun m hm => h m (by simp [hm]))
    simp only [List.countP_cons, List.length_cons]
    rcases ha with h1 | h1 <;> simp [h1] <;> omega

/-- When every gender is `"M"` or `"F"`, the two counselor-gender counts sum
to the counselor count. -/
lemma countP_couns_split (l : List GroupMember)
    (h : ∀ m ∈ l, m.gender = "M" ∨ m.gender = "F") :
    l.countP (fun m => m.gender == "M" && m.role == MemberRole.COUNSELOR)
      + l.countP (fun m => m.gender == "F" && m.role == MemberRole.COUNSELOR)
      = l.countP (fun m => m.role == MemberRole.COUNSELOR) := by
  induction l with
  | nil => rfl
  | cons a t ih =>
    have ha := h a (by simp)
    have ih2 := ih (fun m hm => h m (by simp [hm]))
    simp only [List.countP_cons]
    cases hr : (a.role == MemberRole.COUNSELOR) <;>
      rcases ha with h1 | h1 <;> simp [h1, hr] <;> omega

/-- A group qualifies as non-graduate exactly when it has no graduated
regular member. -/
lemma is_non_grad_iff_countP (g : Group) :
    is_non_graduate_group g = true ↔
      g.members.countP (fun m => m.role == MemberRole.REGULAR && m.is_graduated) = 0 := by
  rw [List.countP_eq_zero]
  unfold is_non_graduate_group
  dsimp only
  constructor
  · intro h m hm hpred
    rw [Bool.and_eq_true] at hpred
    by_cases hre : g.members.filter (fun m => m.role == MemberRole.REGULAR) = []
    · exact List.filter_eq_nil_iff.mp hre m hm hpred.1
    · rw [if_neg hre, Bool.not_eq_true'] at h
      exact List.any_eq_false.mp h m (List.mem_filter.mpr ⟨hm, hpred.1⟩) hpred.2
  · intro h
    by_cases hre : g.members.filter (fun m => m.role == MemberRole.REGULAR) = []
    · rw [if_pos hre]
    · rw [if_neg hre, Bool.not_eq_true', List.any_eq_false]
      intro m hm hgrad
      obtain ⟨hmm, hreg⟩ := List.mem_filter.mp hm
      exact h m hmm (by rw [Bool.and_eq_true]; exact ⟨hreg, hgrad⟩)

/-- Counts that depend only on the swap key are equal across key-multiset
equal member lists: graduated regulars. -/
lemma countP_reg_grad_eq {l1 l2 : List GroupMember}
    (h : List.Perm (l2.map swapKey) (l1.map swapKey)) :
    l2.countP (fun m => m.role == MemberRole.REGULAR && m.is_graduated)
      = l1.countP (fun m => m.role == MemberRole.REGULAR && m.is_graduated) := by
  have h2 := h.countP_eq (fun k => k.1 == MemberRole.REGULAR && k.2.2)
  rw [List.countP_map, List.countP_map] at h2
  exact h2

/-- Counts that depend only on the swap key: counselors. -/
lemma countP_couns_key_eq {l1 l2 : List GroupMember}
    (h : List.Perm (l2.map swapKey) (l1.map swapKey)) :
    l2.countP (fun m => m.role == MemberRole.COUNSELOR)
      = l1.countP (fun m => m.role == MemberRole.COUNSELOR) := by
  have h2 := h.countP_eq (fun k => k.1 == MemberRole.COUNSELOR)
  rw [List.countP_map, List.countP_map] at h2
  exact h2

/-- Per-position entropy bound: a group key-equal to a perfectly balanced
initial group, drawing its members from an all-`M`/`F` pool, has entropy term
at most the initial group's. -/
lemma group_term_le {init : List Group} {gi gc : Group} (hG : GInv init gi gc)
    (hgen : ∀ m ∈ members_of init, m.gender = "M" ∨ m.gender = "F")
    (hgi_pool : ∀ m ∈ gi.members, m.gender = "M" ∨ m.gender = "F")
    (hbg : 2 * gi.members.countP (fun m => m.gender == "M") = gi.members.length)
    (hbc : gi.members.countP (fun m => m.gender == "M" && m.role == MemberRole.COUNSELOR)
      = gi.members.countP (fun m => m.gender == "F" && m.role == MemberRole.COUNSELOR)) :
    (if is_non_graduate_group gc then
        group_gender_entropy gc + group_counselor_entropy gc else 0)
      ≤ (if is_non_graduate_group gi then
        group_gender_entropy gi + group_counselor_entropy gi else 0) := by
  obtain ⟨hkeys, hpool⟩ := hG
  have hgc_gen : ∀ m ∈ gc.members, m.gender = "M" ∨ m.gender = "F" :=
    fun m hm => hgen m (hpool m hm)
  have hng_eq : is_non_graduate_group gc = is_non_graduate_group gi := by
    rw [Bool.eq_iff_iff, is_non_grad_iff_countP, is_non_grad_iff_countP,
      countP_reg_grad_eq hkeys]
  have hlen : gc.members.length = gi.members.length := by
    have h2 := hkeys.length_eq
    rw [List.length_map, List.length_map] at h2
    exact h2
  rw [hng_eq]
  by_cases hng2 : is_non_graduate_group gi = true
  · rw [if_pos hng2, if_pos hng2]
    refine add_le_add ?_ ?_
    · rw [group_gender_entropy_eq2, group_gender_entropy_eq2]
      have hsi := countP_gender_split gi.members hgi_pool
      have hsc := countP_gender_split gc.members hgc_gen
      rcases Nat.eq_zero_or_pos gi.members.length with hz | hp
      · have hMi : gi.members.countP (fun m => m.gender == "M") = 0 := by omega
        have hFi : gi.members.countP (fun m => m.gender == "F") = 0 := by omega
        have hMc : gc.members.countP (fun m => m.gender == "M") = 0 := by omega
        have hFc : gc.members.countP (fun m => m.gender == "F") = 0 := by omega
        rw [hMi, hFi, hMc, hFc]
      · have hFi : gi.members.countP (fun m => m.gender == "F")
            = gi.members.countP (fun m => m.gender == "M") := by omega
        have hMi : 0 < gi.members.countP (fun m => m.gender == "M") := by omega
        rw [hFi, entropy2_self_pos hMi]
        exact entropy2_le_log_two _ _
    · rw [group_counselor_entropy_eq2, group_counselor_entropy_eq2]
      have hsi := countP_couns_split gi.members hgi_pool
      have hsc := countP_couns_split gc.members hgc_gen
      have hck := countP_couns_key_eq hkeys
      rcases Nat.eq_zero_or_pos
          (gi.members.countP (fun m => m.role == MemberRole.COUNSELOR)) with hz | hp
      · have hMi : gi.members.countP
            (fun m => m.gender == "M" && m.role == MemberRole.COUNSELOR) = 0 := by omega
        have hFi : gi.members.countP
            (fun m => m.gender == "F" && m.role == MemberRole.COUNSELOR) = 0 := by omega
        have hMc : gc.members.countP
            (fun m => m.gender == "M" && m.role == MemberRole.COUNSELOR) = 0 := by omega
        have hFc : gc.members.countP
            (fun m => m.gender == "F" && m.role == MemberRole.COUNSELOR) = 0 := by omega
        rw [hMi, hFi, hMc, hFc]
      · have hFi : gi.members.countP
            (fun m => m.gender == "F" && m.role == MemberRole.COUNSELOR)
            = gi.members.countP
              (fun m => m.gender == "M" && m.role == MemberRole.COUNSELOR) := hbc.symm
        have hMi : 0 < gi.members.countP
            (fun m => m.gender == "M" && m.role == MemberRole.COUNSELOR) := by omega
        rw [hFi, entropy2_self_pos hMi]
        exact entropy2_le_log_two _ _
  · rw [if_neg hng2, if_neg hng2]

lemma entropy_sum_le {init : List Group}
    (hgen : ∀ m ∈ members_of init, m.gender = "M" ∨ m.gender = "F") :
    ∀ {l1 l2 : List Group}, List.Forall₂ (GInv init) l1 l2 →
      (∀ g ∈ l1, 2 * g.members.countP (fun m => m.gender == "M") = g.members.length) →
      (∀ g ∈ l1, g.members.countP
          (fun m => m.gender == "M" && m.role == MemberRole.COUNSELOR)
        = g.members.countP
          (fun m => m.gender == "F" && m.role == MemberRole.COUNSELOR)) →
      (∀ g ∈ l1, ∀ m ∈ g.members, m.gender = "M" ∨ m.gender = "F") →
      ((l2.map (fun group => if is_non_graduate_group group then
          group_gender_entropy group + group_counselor_entropy group else 0)).sum
        ≤ (l1.map (fun group => if is_non_graduate_group group then
          group_gender_entropy group + group_counselor_entropy group else 0)).sum) := by
  intro l1 l2 h
  induction h with
  | nil => intro _ _ _; exact le_refl _
  | @cons gi gc t1 t2 hr hf ih =>
    intro hbg hbc hpool
    simp only [List.map_cons, List.sum_cons]
    refine add_le_add
      (group_term_le hr hgen (hpool gi (by simp)) (hbg gi (by simp))
        (hbc gi (by simp))) ?_
    exact ih (fun g hg => hbg g (by simp [hg])) (fun g hg => hbc g (by simp [hg]))
      (fun g hg => hpool g (by simp [hg]))

lemma has_duplicates_eq_false {groups : List Group}
    (hnd : (all_member_ids groups).Nodup) : has_duplicates groups = false := by
  unfold has_duplicates
  rw [List.Nodup.dedup hnd]
  simp

/-- The entropy of any partition position-wise related to a perfectly
balanced, duplicate-free initial partition is at most the initial entropy. -/
lemma entropy_le_of_PartInv {init cur : List Group}
    (hgen : ∀ m ∈ members_of init, m.gender = "M" ∨ m.gender = "F")
    (hbalg : ∀ g ∈ init,
      2 * g.members.countP (fun m => m.gender == "M") = g.members.length)
    (hbalc : ∀ g ∈ init, g.members.countP
        (fun m => m.gender == "M" && m.role == MemberRole.COUNSELOR)
      = g.members.countP
        (fun m => m.gender == "F" && m.role == MemberRole.COUNSELOR))
    (hndd : has_duplicates init = false) (h : PartInv init cur) :
    calculate_gender_entropy cur ≤ calculate_gender_entropy init := by
  unfold calculate_gender_entropy
  rw [hndd]
  rw [if_neg Bool.false_ne_true]
  by_cases hdc : has_duplicates cur = true
  · rw [if_pos hdc]
    exact bot_le
  · rw [if_neg hdc]
    rw [EReal.coe_le_coe_iff]
    exact entropy_sum_le hgen h hbalg hbalc
      (fun g hg m hm => hgen m (List.mem_flatMap.mpr ⟨g, hg, hm⟩))

/-- One balancing step keeps the best partition, its entropy and the current
entropy bound unchanged when the input partition was perfectly balanced. -/
lemma balance_step_frame {init : List Group} {ng : List (Nat × Group)}
    {ids : Finset Int} {R : Rand} {it : Nat} {st : BalState}
    (hng : NgFrom init ng) (hok : StOK init st)
    (hgen : ∀ m ∈ members_of init, m.gender = "M" ∨ m.gender = "F")
    (hbalg : ∀ g ∈ init,
      2 * g.members.countP (fun m => m.gender == "M") = g.members.length)
    (hbalc : ∀ g ∈ init, g.members.countP
        (fun m => m.gender == "M" && m.role == MemberRole.COUNSELOR)
      = g.members.countP
        (fun m => m.gender == "F" && m.role == MemberRole.COUNSELOR))
    (hndd : has_duplicates init = false)
    (hb : st.best_groups = init)
    (he : st.best_entropy = calculate_gender_entropy init)
    (hc : st.current_entropy ≤ calculate_gender_entropy init) :
    (balance_step ng ids R it st).best_groups = init ∧
      (balance_step ng ids R it st).best_entropy = calculate_gender_entropy init ∧
      (balance_step ng ids R it st).current_entropy ≤ calculate_gender_entropy init := by
  unfold balance_step
  dsimp only
  generalize hp1 : ng.getD (R.pickG1 it % ng.length) (0, Group.mk []) = p1
  generalize hp2 : ng.getD (R.pickG2 it % ng.length) (0, Group.mk []) = p2
  by_cases h12 : p1.1 = p2.1
  · rw [if_pos h12]
    exact ⟨hb, he, hc⟩
  · rw [if_neg h12]
    generalize hsp : (p1.2.members.flatMap fun m1 =>
        List.map (fun m2 => (m1, m2))
          (List.filter (fun m2 => can_swap m1 m2) p2.2.members)) = sp
    by_cases hspe : sp = []
    · rw [if_pos hspe]
      exact ⟨hb, he, hc⟩
    · rw [if_neg hspe]
      generalize hpr :
        sp.getD (R.pickPair it % sp.length) (default_member, default_member) = pr
      have hngne : ng ≠ [] := by
        intro hnil
        apply h12
        rw [hnil] at hp1 hp2
        rw [← hp1, ← hp2]
        rfl
      obtain ⟨hlt1, heq1⟩ := hng p1 (hp1 ▸ mem_of_getD_pairs hngne (R.pickG1 it) _)
      obtain ⟨hlt2, heq2⟩ := hng p2 (hp2 ▸ mem_of_getD_pairs hngne (R.pickG2 it) _)
      have hprm : pr ∈ sp := hpr ▸ mem_of_getD_mempairs hspe (R.pickPair it) _
      rw [← hsp] at hprm
      simp only [List.mem_flatMap, List.mem_map, List.mem_filter] at hprm
      obtain ⟨m1, hm1, m2, ⟨hm2, hcs⟩, hpreq⟩ := hprm
      have hkey : swapKey m1 = swapKey m2 := can_swap_key hcs
      have hm1p : m1 ∈ members_of init := by
        rw [heq1, List.getD_eq_getElem init (Group.mk []) hlt1] at hm1
        exact group_subset_pool hlt1 m1 hm1
      have hm2p : m2 ∈ members_of init := by
        rw [heq2, List.getD_eq_getElem init (Group.mk []) hlt2] at hm2
        exact group_subset_pool hlt2 m2 hm2
      have hpr1 : pr.1 = m1 := by rw [← hpreq]
      have hpr2 : pr.2 = m2 := by rw [← hpreq]
      have htemp : PartInv init
          ((st.balanced_groups.set p1.1
              (Group.mk (p1.2.members.map (fun m => if m = pr.1 then pr.2 else m)))).set
            p2.1
            (Group.mk (p2.2.members.map (fun m => if m = pr.2 then pr.1 else m)))) := by
        refine (hok.1.set p1.1 _ (fun hi => ?_)).set p2.1 _ (fun hi => ?_)
        · rw [heq1, hpr1, hpr2]
          exact swapped_GInv hlt1 hkey hm2p
        · rw [heq2, hpr1, hpr2]
          exact swapped_GInv hlt2 hkey.symm hm1p
      by_cases hchk : get_member_ids
          ((st.balanced_groups.set p1.1
              (Group.mk (p1.2.members.map (fun m => if m = pr.1 then pr.2 else m)))).set
            p2.1
            (Group.mk (p2.2.members.map (fun m => if m = pr.2 then pr.1 else m)))) ≠ ids
      · rw [if_pos hchk]
        exact ⟨hb, he, hc⟩
      · rw [if_neg hchk]
        have hnew_le : calculate_gender_entropy
            ((st.balanced_groups.set p1.1
                (Group.mk (p1.2.members.map (fun m => if m = pr.1 then pr.2 else m)))).set
              p2.1
              (Group.mk (p2.2.members.map (fun m => if m = pr.2 then pr.1 else m))))
            ≤ calculate_gender_entropy init :=
          entropy_le_of_PartInv hgen hbalg hbalc hndd htemp
        split
        · rw [he, if_neg (not_lt.mpr hnew_le)]
          exact ⟨hb, rfl, hnew_le⟩
        · exact ⟨hb, he, hc⟩

/-- C8 (amended): if the input partition has pairwise-distinct member ids,
every member's gender is `"M"` or `"F"`, every group holds exactly as many
`"M"` members as `"F"` members, and every group's counselors are likewise
evenly split between the genders, then `balance_gender_in_groups` returns the
input partition itself (zero net swaps), for every iteration budget,
temperature and sequence of random choices. -/
theorem balance_perfect_balance_amended (groups : List Group)
    (max_iterations : Nat) (temperature : ℝ) (R : Rand)
    (hnd : (all_member_ids groups).Nodup)
    (hgen : ∀ m ∈ members_of groups, m.gender = "M" ∨ m.gender = "F")
    (hbalg : ∀ g ∈ groups,
      2 * g.members.countP (fun m => m.gender == "M") = g.members.length)
    (hbalc : ∀ g ∈ groups, g.members.countP
        (fun m => m.gender == "M" && m.role == MemberRole.COUNSELOR)
      = g.members.countP
        (fun m => m.gender == "F" && m.role == MemberRole.COUNSELOR)) :
    balance_gender_in_groups groups max_iterations temperature R = groups := by
  have hndd : has_duplicates groups = false := has_duplicates_eq_false hnd
  unfold balance_gender_in_groups
  dsimp only
  rw [List.map_id' groups]
  split
  · rfl
  · have hloop : ∀ (n it : Nat) (st : BalState), StOK groups st →
        st.best_groups = groups →
        st.best_entropy = calculate_gender_entropy groups →
        st.current_entropy ≤ calculate_gender_entropy groups →
        (balance_loop (groups.enum.filter (fun p => is_non_graduate_group p.2))
            (get_member_ids groups) R n it st).best_groups = groups := by
      intro n
      induction n with
      | zero => intro it st _ hb _ _; exact hb
      | succ k ih =>
        intro it st hok hb he hc
        obtain ⟨hb2, he2, hc2⟩ := balance_step_frame (ng_from_enum groups) hok
          hgen hbalg hbalc hndd hb he hc
        exact ih (it + 1) _ (balance_step_StOK (ng_from_enum groups) hok) hb2 he2 hc2
    have hfin := hloop max_iterations 0
      ⟨groups, calculate_gender_entropy groups, calculate_gender_entropy groups,
        groups, temperature⟩
      ⟨partInv_refl groups, partInv_refl groups⟩ rfl rfl (le_refl _)
    rw [hfin]
    split <;> rfl

/-- Witness for the amended C8: a two-group partition, each group one `"M"`
and one `"F"` regular, is returned unchanged. -/
theorem balance_perfect_balance_amended_witness :
    balance_gender_in_groups
      [Group.mk [⟨1, "a", "b", .REGULAR, "M", "x", "student", false, true, false⟩,
                 ⟨2, "c", "d", .REGULAR, "F", "x", "student", false, true, false⟩],
       Group.mk [⟨3, "e", "f", .REGULAR, "M", "x", "student", false, true, false⟩,
                 ⟨4, "g", "h", .REGULAR, "F", "x", "student", false, true, false⟩]]
      500 0.1 trivialRand
    = [Group.mk [⟨1, "a", "b", .REGULAR, "M", "x", "student", false, true, false⟩,
                 ⟨2, "c", "d", .REGULAR, "F", "x", "student", false, true, false⟩],
       Group.mk [⟨3, "e", "f", .REGULAR, "M", "x", "student", false, true, false⟩,
                 ⟨4, "g", "h", .REGULAR, "F", "x", "student", false, true, false⟩]] :=
  balance_perfect_balance_amended _ 500 0.1 trivialRand (by decide) (by decide)
    (by decide) (by decide)

/-! A concrete run of the balancer on a perfectly gender-balanced partition
whose counselors are unevenly distributed: one swap strictly raises the
counselor-balance part of the entropy, so the returned partition differs from
the input. -/

def c8a1 : GroupMember := ⟨1, "a", "1", .COUNSELOR, "M", "x", "student", false, true, false⟩

def c8a2 : GroupMember := ⟨2, "a", "2", .COUNSELOR, "M", "x", "student", false, true, false⟩

def c8a3 : GroupMember := ⟨3, "a", "3", .REGULAR, "F", "x", "student", false, true, false⟩

def c8a4 : GroupMember := ⟨4, "a", "4", .REGULAR, "F", "x", "student", false, true, false⟩

def c8b1 : GroupMember := ⟨5, "b", "1", .COUNSELOR, "F", "x", "student", false, true, false⟩

def c8b2 : GroupMember := ⟨6, "b", "2", .COUNSELOR, "F", "x", "student", false, true, false⟩

def c8b3 : GroupMember := ⟨7, "b", "3", .REGULAR, "M", "x", "student", false, true, false⟩

def c8b4 : GroupMember := ⟨8, "b", "4", .REGULAR, "M", "x", "student", false, true, false⟩

def c8_groupA : Group := Group.mk [c8a1, c8a2, c8a3, c8a4]

def c8_groupB : Group := Group.mk [c8b1, c8b2, c8b3, c8b4]

def c8_groups : List Group := [c8_groupA, c8_groupB]

/-- The partition after swapping the male counselor `c8a1` with the female
counselor `c8b1`. -/
def c8_swapped : List Group :=
  [Group.mk [c8b1, c8a2, c8a3, c8a4], Group.mk [c8a1, c8b2, c8b3, c8b4]]

/-- Oracle for the run: pick group 0 and group 1, the first swappable pair,
and accept. -/
def c8_rand : Rand :=
  ⟨id, id, id, id, id, fun _ => 0, fun _ => 1, fun _ => 0, fun _ => true⟩

lemma negMulLog_pos_of_lt_one {x : ℝ} (h0 : 0 < x) (h1 : x < 1) :
    0 < Real.negMulLog x := by
  have hlog : Real.log x < 0 := Real.log_neg h0 h1
  have hdef : Real.negMulLog x = -x * Real.log x := rfl
  rw [hdef]
  nlinarith

lemma c8_ggeA : group_gender_entropy c8_groupA = Real.log 2 := by
  rw [group_gender_entropy_eq2]
  rw [show c8_groupA.members.countP (fun m => m.gender == "M") = 2 from by decide]
  rw [show c8_groupA.members.countP (fun m => m.gender == "F") = 2 from by decide]
  exact entropy2_self_pos (by norm_num)

lemma c8_ggeB : group_gender_entropy c8_groupB = Real.log 2 := by
  rw [group_gender_entropy_eq2]
  rw [show c8_groupB.members.countP (fun m => m.gender == "M") = 2 from by decide]
  rw [show c8_groupB.members.countP (fun m => m.gender == "F") = 2 from by decide]
  exact entropy2_self_pos (by norm_num)

lemma c8_gceA : group_counselor_entropy c8_groupA = 0 := by
  rw [group_counselor_entropy_eq2]
  rw [show c8_groupA.members.countP
      (fun m => m.gender == "M" && m.role == MemberRole.COUNSELOR) = 2 from by decide]
  rw [show c8_groupA.members.countP
      (fun m => m.gender == "F" && m.role == MemberRole.COUNSELOR) = 0 from by decide]
  unfold entropy2
  rw [if_pos (by norm_num)]
  norm_num [Real.negMulLog_one, Real.negMulLog_zero]

lemma c8_gceB : group_counselor_entropy c8_groupB = 0 := by
  rw [group_counselor_entropy_eq2]
  rw [show c8_groupB.members.countP
      (fun m => m.gender == "M" && m.role == MemberRole.COUNSELOR) = 0 from by decide]
  rw [show c8_groupB.members.countP
      (fun m => m.gender == "F" && m.role == MemberRole.COUNSELOR) = 2 from by decide]
  unfold entropy2
  rw [if_pos (by norm_num)]
  norm_num [Real.negMulLog_one, Real.negMulLog_zero]

lemma c8_E0 : calculate_gender_entropy c8_groups = ((2 * Real.log 2 : ℝ) : EReal) := by
  unfold calculate_gender_entropy
  rw [if_neg (by decide : ¬ (has_duplicates c8_groups = true))]
  congr 1
  show ((c8_groups.map (fun group =>
      if is_non_graduate_group group then
        group_gender_entropy group + group_counselor_entropy group
      else 0)).sum : ℝ) = 2 * Real.log 2
  rw [show c8_groups = [c8_groupA, c8_groupB] from rfl]
  simp only [List.map_cons, List.map_nil, List.sum_cons, List.sum_nil]
  rw [if_pos (by decide : is_non_graduate_group c8_groupA = true)]
  rw [if_pos (by decide : is_non_graduate_group c8_groupB = true)]
  rw [c8_ggeA, c8_ggeB, c8_gceA, c8_gceB]
  ring

lemma c8_ggeA' : group_gender_entropy (Group.mk [c8b1, c8a2, c8a3, c8a4])
    = Real.negMulLog (1/4) + Real.negMulLog (3/4) := by
  rw [group_gender_entropy_eq2]
  rw [show (Group.mk [c8b1, c8a2, c8a3, c8a4]).members.countP
      (fun m => m.gender == "M") = 1 from by decide]
  rw [show (Group.mk [c8b1, c8a2, c8a3, c8a4]).members.countP
      (fun m => m.gender == "F") = 3 from by decide]
  unfold entropy2
  rw [if_pos (by norm_num)]
  norm_num

lemma c8_ggeB' : group_gender_entropy (Group.mk [c8a1, c8b2, c8b3, c8b4])
    = Real.negMulLog (3/4) + Real.negMulLog (1/4) := by
  rw [group_gender_entropy_eq2]
  rw [show (Group.mk [c8a1, c8b2, c8b3, c8b4]).members.countP
      (fun m => m.gender == "M") = 3 from by decide]
  rw [show (Group.mk [c8a1, c8b2, c8b3, c8b4]).members.countP
      (fun m => m.gender == "F") = 1 from by decide]
  unfold entropy2
  rw [if_pos (by norm_num)]
  norm_num

lemma c8_gceA' : group_counselor_entropy (Group.mk [c8b1, c8a2, c8a3, c8a4])
    = Real.log 2 := by
  rw [group_counselor_entropy_eq2]
  rw [show (Group.mk [c8b1, c8a2, c8a3, c8a4]).members.countP
      (fun m => m.gender == "M" && m.role == MemberRole.COUNSELOR) = 1 from by decide]
  rw [show (Group.mk [c8b1, c8a2, c8a3, c8a4]).members.countP
      (fun m => m.gender == "F" && m.role == MemberRole.COUNSELOR) = 1 from by decide]
  exact entropy2_self_pos (by norm_num)

lemma c8_gceB' : group_counselor_entropy (Group.mk [c8a1, c8b2, c8b3, c8b4])
    = Real.log 2 := by
  rw [group_counselor_entropy_eq2]
  rw [show (Group.mk [c8a1, c8b2, c8b3, c8b4]).members.countP
      (fun m => m.gender == "M" && m.role == MemberRole.COUNSELOR) = 1 from by decide]
  rw [show (Group.mk [c8a1, c8b2, c8b3, c8b4]).members.countP
      (fun m => m.gender == "F" && m.role == MemberRole.COUNSELOR) = 1 from by decide]
  exact entropy2_self_pos (by norm_num)

lemma c8_E1 : calculate_gender_entropy c8_swapped
    = ((2 * (Real.negMulLog (1/4) + Real.negMulLog (3/4)) + 2 * Real.log 2 : ℝ)
      : EReal) := by
  unfold calculate_gender_entropy
  rw [if_neg (by decide : ¬ (has_duplicates c8_swapped = true))]
  congr 1
  show ((c8_swapped.map (fun group =>
      if is_non_graduate_group group then
        group_gender_entropy group + group_counselor_entropy group
      else 0)).sum : ℝ)
    = 2 * (Real.negMulLog (1/4) + Real.negMulLog (3/4)) + 2 * Real.log 2
  rw [show c8_swapped
      = [Group.mk [c8b1, c8a2, c8a3, c8a4], Group.mk [c8a1, c8b2, c8b3, c8b4]] from rfl]
  simp only [List.map_cons, List.map_nil, List.sum_cons, List.sum_nil]
  rw [if_pos (by decide :
    is_non_graduate_group (Group.mk [c8b1, c8a2, c8a3, c8a4]) = true)]
  rw [if_pos (by decide :
    is_non_graduate_group (Group.mk [c8a1, c8b2, c8b3, c8b4]) = true)]
  rw [c8_ggeA', c8_ggeB', c8_gceA', c8_gceB']
  ring

lemma c8_lt : calculate_gender_entropy c8_groups < calculate_gender_entropy c8_swapped := by
  rw [c8_E0, c8_E1]
  rw [EReal.coe_lt_coe_iff]
  have h1 : 0 < Real.negMulLog (1/4) := negMulLog_pos_of_lt_one (by norm_num) (by norm_num)
  have h2 : 0 < Real.negMulLog (3/4) := negMulLog_pos_of_lt_one (by norm_num) (by norm_num)
  linarith

section
open scoped Classical

lemma c8_run : balance_gender_in_groups c8_groups 1 0.1 c8_rand = c8_swapped := by
  have hstep : balance_step [((0:Nat), c8_groupA), ((1:Nat), c8_groupB)]
      (get_member_ids c8_groups) c8_rand 0
      ⟨c8_groups, calculate_gender_entropy c8_groups, calculate_gender_entropy c8_groups,
        c8_groups, 0.1⟩
      = ⟨c8_swapped, calculate_gender_entropy c8_swapped,
          calculate_gender_entropy c8_swapped, c8_swapped, 0.1 * 0.999⟩ := by
    have h1 : balance_step [((0:Nat), c8_groupA), ((1:Nat), c8_groupB)]
        (get_member_ids c8_groups) c8_rand 0
        ⟨c8_groups, calculate_gender_entropy c8_groups,
          calculate_gender_entropy c8_groups, c8_groups, 0.1⟩
        = if 0 < calculate_gender_entropy c8_swapped - calculate_gender_entropy c8_groups
            ∨ c8_rand.coin 0 = true then
            if calculate_gender_entropy c8_groups < calculate_gender_entropy c8_swapped
              then
              ⟨c8_swapped, calculate_gender_entropy c8_swapped,
                calculate_gender_entropy c8_swapped, c8_swapped, (0.1:ℝ) * 0.999⟩
            else
              ⟨c8_swapped, calculate_gender_entropy c8_swapped,
                calculate_gender_entropy c8_groups, c8_groups, (0.1:ℝ) * 0.999⟩
          else
            ⟨c8_groups, calculate_gender_entropy c8_groups,
              calculate_gender_entropy c8_groups, c8_groups, (0.1:ℝ) * 0.999⟩ := rfl
    rw [h1, if_pos (show
        0 < calculate_gender_entropy c8_swapped - calculate_gender_entropy c8_groups
          ∨ c8_rand.coin 0 = true from Or.inr rfl), if_pos c8_lt]
  unfold balance_gender_in_groups
  dsimp only
  have hmap : c8_groups.map (fun group => Group.mk group.members) = c8_groups :=
    List.map_id' c8_groups
  rw [hmap]
  have hflt : c8_groups.enum.filter (fun p => is_non_graduate_group p.2)
      = [((0:Nat), c8_groupA), ((1:Nat), c8_groupB)] := by decide
  rw [hflt]
  rw [if_neg (by decide :
    ¬ (([((0:Nat), c8_groupA), ((1:Nat), c8_groupB)] : List (Nat × Group)).length < 2))]
  have hloop : balance_loop [((0:Nat), c8_groupA), ((1:Nat), c8_groupB)]
      (get_member_ids c8_groups) c8_rand 1 0
      ⟨c8_groups, calculate_gender_entropy c8_groups, calculate_gender_entropy c8_groups,
        c8_groups, 0.1⟩
      = ⟨c8_swapped, calculate_gender_entropy c8_swapped,
          calculate_gender_entropy c8_swapped, c8_swapped, 0.1 * 0.999⟩ := hstep
  rw [hloop]
  show (if has_duplicates c8_swapped then c8_groups else c8_swapped) = c8_swapped
  rw [if_neg (by decide : ¬ (has_duplicates c8_swapped = true))]

end

/-- C8 (counterexample to the claim): a partition in which every group is
perfectly gender-balanced (exactly half `"M"` and half `"F"` in each group),
yet `balance_gender_in_groups` returns a different partition after one
iteration: the counselor-balance term of the entropy strictly improves by
swapping a male counselor for a female one, so the swap is kept as the new
best partition. -/
theorem balance_perfect_balance_counterexample :
    (∀ g ∈ c8_groups,
      2 * g.members.countP (fun m => m.gender == "M") = g.members.length ∧
      2 * g.members.countP (fun m => m.gender == "F") = g.members.length) ∧
    balance_gender_in_groups c8_groups 1 0.1 c8_rand ≠ c8_groups := by
  refine ⟨by decide, ?_⟩
  rw [c8_run]
  decide

end SmallGroup
